import Mathlib

/-!
Verification development for the `sugar-function` build of the Sugar core
(`src/dist/sugar-function.js`).  Each definition is a shallow embedding of the
correspondingly named JavaScript function; object identity is modelled by an
allocation counter, in-place mutation by state passing, and `throw` by explicit
error results.
-/

namespace SugarFn

/-! ### Core registry (`createNamespace`, lines 113-476)

`getNewChainableClass` always builds a brand-new function object, so namespace
identity is modelled by an allocation counter.  `createNamespace(name)` writes
the fresh object into `namespacesByName`, `namespacesByClassString` and
`Sugar[name]` (property assignment replaces an existing entry) and returns it.
-/

/-- Registry state: the allocation counter for chainable classes plus the two
name-indexed tables kept by the core (`Sugar[name]` always mirrors
`namespacesByName[name]`, so it is not tracked separately). -/
structure Registry where
  nextId : Nat
  namespacesByName : List (String × Nat)
  namespacesByClassString : List (String × Nat)
deriving Repr, DecidableEq

/-- JavaScript property assignment on a string-keyed table: replace the
existing entry or append a new one. -/
def putProp (l : List (String × Nat)) (k : String) (v : Nat) : List (String × Nat) :=
  match l with
  | [] => [(k, v)]
  | (k', v') :: t => if k' = k then (k, v) :: t else (k', v') :: putProp t k v

/-- Embeds `getNewChainableClass`: unconditionally allocates a fresh chainable
class object (the source has no lookup of an existing one). -/
def getNewChainableClass (st : Registry) : Nat × Registry :=
  (st.nextId, ⟨st.nextId + 1, st.namespacesByName, st.namespacesByClassString⟩)

/-- Embeds `createNamespace(name)`: allocate a fresh chainable class, register
it under `name` and under `'[object ' + name + ']'`, and return it.  The
source contains no check for an already-registered `name`. -/
def createNamespace (name : String) (st : Registry) : Nat × Registry :=
  let alloc := getNewChainableClass st
  let sugarNamespace := alloc.1
  let st1 := alloc.2
  (sugarNamespace,
    ⟨st1.nextId,
     putProp st1.namespacesByName name sugarNamespace,
     putProp st1.namespacesByClassString ("[object " ++ name ++ "]") sugarNamespace⟩)

/-! ### Extension filtering (`extend`, lines 163-259)

The per-method filter of `extend` decides which registered methods are copied
onto the native class and prototype.  `allowObjectPrototype` is the module
variable of the same name (default `false`). -/

/-- An entry of the `except` option: either a method name (a string) or a
native global class (identified here by its name). -/
inductive ExceptEntry where
  | methodName (s : String)
  | nativeClassTag (s : String)
deriving DecidableEq, Repr

/-- JavaScript truthiness of an `except` entry (the `for (...; el = arr[i];)`
loop of `arrayOptionExists` stops at the first falsy element; only the empty
string is falsy among the possible entries). -/
def excEntryTruthy : ExceptEntry → Bool
  | .methodName s => !s.isEmpty
  | .nativeClassTag _ => true

/-- Embeds `arrayOptionExists` for the `except` array: linear scan that stops
at the first falsy element. -/
def arrayOptionExists (arr : List ExceptEntry) (v : ExceptEntry) : Bool :=
  match arr with
  | [] => false
  | e :: t => if !excEntryTruthy e then false
              else if e = v then true else arrayOptionExists t v

/-- Embeds `arrayOptionExists` for the `namespaces` array (entries are native
class objects, always truthy). -/
def arrayOptionExistsNs (arr : List String) (tag : String) : Bool :=
  arr.contains tag

/-- Options accepted by `extend`; `methods` is the explicit allow-list,
`flagOptions` records which enhancement flags were set (to `true`/`false`),
`objectPrototype` is present only when passed as a boolean. -/
structure ExtendOpts where
  methods : Option (List String)
  exceptList : List ExceptEntry
  namespaces : Option (List String)
  flagOptions : List (String × Bool)
  objectPrototype : Option Bool
deriving Repr

/-- A registered method as seen by `extend`: whether it carries an `instance`
implementation, whether it is marked `static`, and its enhancement flags
(absent unless `defineMethods` received them). -/
structure MethodRec where
  hasInstance : Bool
  hasStatic : Bool
  flags : Option (List String)
deriving Repr, DecidableEq

/-- Embeds `objectRestricted(name, target)`: a method is restricted exactly
when the namespace is `Object`, the target is `Object.prototype`, and either
`allowObjectPrototype` is off or the name is `get` or `set`. -/
def objectRestricted (isObject targetIsObjectProto allowObjectPrototype : Bool)
    (name : String) : Bool :=
  isObject && targetIsObjectProto &&
    (!allowObjectPrototype || name == "get" || name == "set")

/-- Embeds `disallowedByFlags(methodName, target, flags)`: only applies when
the target already has the method and flags are present; then any flag the
options explicitly set to `false` disallows the method. -/
def disallowedByFlags (flagOptions : List (String × Bool)) (targetHasMethod : Bool)
    (flags : Option (List String)) : Bool :=
  match flags with
  | none => false
  | some fl => targetHasMethod && fl.any (fun f => flagOptions.lookup f == some false)

/-- Embeds `methodIsExcepted(methodName)`. -/
def methodIsExcepted (opts : ExtendOpts) (name : String) : Bool :=
  arrayOptionExists opts.exceptList (.methodName name)

/-- Embeds `namespaceIsExcepted()`: the namespace is skipped when its native
class is listed in `except`, or a `namespaces` list is present that omits it. -/
def namespaceIsExcepted (opts : ExtendOpts) (tag : String) : Bool :=
  arrayOptionExists opts.exceptList (.nativeClassTag tag) ||
    (match opts.namespaces with
     | none => false
     | some l => !arrayOptionExistsNs l tag)

/-- Embeds `canExtend(methodName, method, target)`. -/
def canExtend (opts : ExtendOpts) (isObject allowObjectPrototype : Bool)
    (targetIsObjectProto targetHasMethod : Bool) (m : MethodRec) (name : String) : Bool :=
  !objectRestricted isObject targetIsObjectProto allowObjectPrototype name &&
  !disallowedByFlags opts.flagOptions targetHasMethod m.flags &&
  !methodIsExcepted opts name

/-- Inputs of one `extend` call: whether the namespace is `Object`, its native
class tag, the members already present on the native prototype and class, and
the namespace's own registered methods (enumeration order). -/
structure ExtendInput where
  isObject : Bool
  nativeClassTag : String
  nativeProtoMembers : List String
  nativeClassMembers : List String
  methods : List (String × MethodRec)
deriving Repr

/-- The `allowObjectPrototype` module variable after `extend` stored the
`objectPrototype` option (only on the `Object` namespace, only when the
option is a boolean). -/
def extendUpdatedAllow (allowObjectPrototype : Bool) (inp : ExtendInput)
    (opts : ExtendOpts) : Bool :=
  match inp.isObject, opts.objectPrototype with
  | true, some b => b
  | _, _ => allowObjectPrototype

/-- The (name, method) pairs the `forEachProperty` loop of `extend` visits:
either the explicit `methods` allow-list (with the lookup of each name) or
the namespace's own methods. -/
def extendEntries (inp : ExtendInput) (opts : ExtendOpts) :
    List (String × Option MethodRec) :=
  match opts.methods with
  | some names => names.map (fun n => (n, inp.methods.lookup n))
  | none => inp.methods.map (fun p => (p.1, some p.2))

/-- One entry of the instance-method collection loop: the name is collected
when the method carries an `instance` implementation and `canExtend` passes
for the native prototype target. -/
def extendInstFilter (opts : ExtendOpts) (isObject allow : Bool)
    (protoMembers : List String) (e : String × Option MethodRec) : Option String :=
  match e.2 with
  | some m =>
    if m.hasInstance &&
       canExtend opts isObject allow isObject (protoMembers.contains e.1) m e.1
    then some e.1 else none
  | none => none

/-- One entry of the static-method collection loop (the target is the native
class itself, never the shared object prototype). -/
def extendStaticFilter (opts : ExtendOpts) (isObject allow : Bool)
    (classMembers : List String) (e : String × Option MethodRec) : Option String :=
  match e.2 with
  | some m =>
    if m.hasStatic &&
       canExtend opts isObject allow false (classMembers.contains e.1) m e.1
    then some e.1 else none
  | none => none

/-- Embeds the body of `extend`: returns the instance-method names copied onto
the native prototype, the static-method names copied onto the native class,
and the updated `allowObjectPrototype` module variable. -/
def extendRun (allowObjectPrototype : Bool) (inp : ExtendInput) (opts : ExtendOpts) :
    List String × List String × Bool :=
  if namespaceIsExcepted opts inp.nativeClassTag then ([], [], allowObjectPrototype)
  else
    let allow := extendUpdatedAllow allowObjectPrototype inp opts
    let entries := extendEntries inp opts
    (entries.filterMap (extendInstFilter opts inp.isObject allow inp.nativeProtoMembers),
     entries.filterMap (extendStaticFilter opts inp.isObject allow inp.nativeClassMembers),
     allow)

/-! ### Chainable dispatch and disambiguation (`disambiguateMethod`, lines 708-736) -/

/-- A method installed on a chainable prototype: either a plain wrapped
implementation (identified by an id) or a disambiguation function, which the
source marks with `fn.disambiguate = true`. -/
inductive ProtoEntry where
  | plainMethod (implId : Nat)
  | disambiguator (methodName : String)
deriving DecidableEq, Repr

/-- A chainable namespace as the dispatcher sees it: its prototype table. -/
structure ChainNs where
  protoTable : List (String × ProtoEntry)
deriving Repr

/-- Dispatch state: `namespacesByClassString` and the `Sugar.Object`
fallback namespace. -/
structure DispatchState where
  namespacesByClassString : List (String × ChainNs)
  objectNs : ChainNs
deriving Repr

/-- Outcome of invoking a disambiguation method on a wrapper. -/
inductive CallOutcome where
  | invoked (implId : Nat)
  | typeError (msg : String)
deriving DecidableEq, Repr

/-- Embeds the function built by `disambiguateMethod(methodName)`: resolve the
raw value's namespace from its class string (falling back to `Sugar.Object`
for null/undefined or unknown classes), fetch that namespace's method, and
throw a `TypeError` if the fetched implementation is itself a disambiguator.
A missing method also throws (reading `.disambiguate` of `undefined`). -/
def disambiguateMethodCall (st : DispatchState) (methodName : String)
    (rawIsNullish : Bool) (rawClassTag : String) (rawStr : String) : CallOutcome :=
  let ns0 := if rawIsNullish then none else st.namespacesByClassString.lookup rawClassTag
  let ns := ns0.getD st.objectNs
  match ns.protoTable.lookup methodName with
  | none => .typeError "Cannot read property of undefined"
  | some (.disambiguator _) => .typeError ("Cannot resolve namespace for " ++ rawStr)
  | some (.plainMethod id) => .invoked id

/-! ### Instance-method wrapping (`wrapInstanceMethodFixed`, lines 578-605)

`defineMethods` synthesizes the instance variant of a method defined with
`collectsArguments` false by calling `wrapInstanceMethodFixed(fn)`, which
switches on the declared arity of `fn` and returns a wrapper forwarding the
receiver plus a fixed number of positional parameters.  A JavaScript call
supplies `undefined` for missing arguments and the wrapper's parameter list
truncates extras, so the callee always receives exactly the listed
arguments. -/

/-- The argument list a JavaScript function call builds for `n` declared
forwarding positions: the first `n` call-site arguments, padded with
`undefined`. -/
def jsCallArgs {α : Type} (undef : α) (args : List α) (n : Nat) : List α :=
  args.take n ++ List.replicate (n - args.length) undef

/-- Embeds applying the wrapper returned by `wrapInstanceMethodFixed(fn)` for
an implementation of declared arity `arity`: the switch has cases for arities
0-5 (forwarding 0-4 positional parameters after the receiver) and returns
`undefined` (here `none`) for larger arities. -/
def wrapInstanceMethodFixedApply {α : Type} (undef : α) (arity : Nat)
    (f : List α → α) (self : α) (args : List α) : Option α :=
  match arity with
  | 0 => some (f [self])
  | 1 => some (f [self])
  | 2 => some (f (self :: jsCallArgs undef args 1))
  | 3 => some (f (self :: jsCallArgs undef args 2))
  | 4 => some (f (self :: jsCallArgs undef args 3))
  | 5 => some (f (self :: jsCallArgs undef args 4))
  | _ => none

/-! ### The deep-property resolver (`handleDeepProperty`, lines 1226-1314, and
`handleArrayIndexRange`, lines 1317-1367)

JavaScript values are modelled as finite trees (the resolver never needs
aliasing), in-place mutation as path-based functional update of the root, and
thrown `TypeError`s as `Except.error`.  Numbers are restricted to integers
(the key domain the resolver manipulates); bracket keys can never contain a
period (the period split happens first), so fractional indices cannot arise.
-/

/-- A JavaScript value for the path resolver. -/
inductive JVal where
  | undef
  | jnull
  | num (n : Int)
  | jstr (s : String)
  | jbool (b : Bool)
  | arr (xs : List JVal)
  | jobj (fields : List (String × JVal))
deriving Repr

/-- JavaScript truthiness (NaN cannot arise for the integer-valued model). -/
def jsTruthy : JVal → Bool
  | .undef => false
  | .jnull => false
  | .num n => n != 0
  | .jstr s => !s.isEmpty
  | .jbool b => b
  | .arr _ => true
  | .jobj _ => true

/-- Embeds `isPrimitive` (line 1383): null, undefined, strings, numbers and
booleans. -/
def isPrimitiveJ : JVal → Bool
  | .undef => true
  | .jnull => true
  | .num _ => true
  | .jstr _ => true
  | .jbool _ => true
  | _ => false

/-- Digit-run parser (`String.toNat?` restated over the character list so
that it evaluates inside the kernel). -/
def digitsToNatAux : List Char → Nat → Option Nat
  | [], acc => some acc
  | c :: t, acc => if c.isDigit then digitsToNatAux t (acc * 10 + (c.toNat - 48)) else none

/-- The number denoted by a non-empty all-digit string. -/
def strToNatQ (s : String) : Option Nat :=
  match s.toList with
  | [] => none
  | l => digitsToNatAux l 0

/-- Split a character list at every occurrence of `c`
(`String.prototype.split` with a single-character separator). -/
def splitOnChar (c : Char) : List Char → List (List Char)
  | [] => [[]]
  | a :: t =>
    match splitOnChar c t with
    | [] => [[]]
    | h :: r => if a = c then [] :: h :: r else (a :: h) :: r

/-- Whether the string contains the substring `".."`
(`key.indexOf('..') !== -1`). -/
def containsDotDot : List Char → Bool
  | a :: b :: t => (a = '.' && b = '.') || containsDotDot (b :: t)
  | _ => false

/-- A string is a canonical array-index property name iff it round-trips
through the number it denotes (JavaScript array elements are the own
properties with canonical numeric names). -/
def parseCanonNat (s : String) : Option Nat :=
  match strToNatQ s with
  | none => none
  | some n => if toString n = s then some n else none

/-- The value of the unary `+` operator on the strings the resolver feeds it
(digits with an optional leading minus sign); `none` models `NaN`. -/
def jsPlusNumber (s : String) : Option Int :=
  match s.toList with
  | '-' :: _ => (strToNatQ (s.drop 1)).map (fun n => -(n : Int))
  | _ => (strToNatQ s).map (fun n => (n : Int))

/-- Own-property read `v[k]`, `undefined` when absent.  Accessing a property
of a primitive cannot throw here because the resolver only reads after a
positive `hasOwn`/`in` check. -/
def getPropJ (v : JVal) (k : String) : JVal :=
  match v with
  | .arr xs =>
    match parseCanonNat k with
    | some i => xs.getD i .undef
    | none => if k = "length" then .num xs.length else .undef
  | .jobj fs => (fs.lookup k).getD .undef
  | .jstr s =>
    match parseCanonNat k with
    | some i => if i < s.length then .jstr (String.singleton (s.toList.getD i ' ')) else .undef
    | none => if k = "length" then .num s.length else .undef
  | _ => (.undef)

/-- Embeds `hasOwn(v, k)` (line 813): falsy receivers have no own properties;
arrays own their canonical indices and `length`; string objects own their
character indices and `length`. -/
def hasOwnJ (v : JVal) (k : String) : Bool :=
  match v with
  | .arr xs =>
    match parseCanonNat k with
    | some i => i < xs.length
    | none => k == "length"
  | .jobj fs => fs.any (fun p => p.1 == k)
  | .jstr s =>
    match parseCanonNat k with
    | some i => i < s.length
    | none => k == "length"
  | _ => false

/-- The `in` operator (used when `any` is true): throws on primitives; on the
modelled objects it coincides with the own-property check (inherited
prototype members are outside the modelled data domain). -/
def keyInJ (v : JVal) (k : String) : Except String Bool :=
  match v with
  | .arr _ => .ok (hasOwnJ v k)
  | .jobj _ => .ok (hasOwnJ v k)
  | _ => .error "TypeError: cannot use in operator"

/-- Replace or append a field of an object, preserving insertion order. -/
def upsertField (fs : List (String × JVal)) (k : String) (w : JVal) :
    List (String × JVal) :=
  match fs with
  | [] => [(k, w)]
  | (k', v') :: t => if k' = k then (k, w) :: t else (k', v') :: upsertField t k w

/-- Write an array element, extending the array (holes modelled as
`undefined`) when the index is past the end. -/
def listSetPad (xs : List JVal) (i : Nat) (w : JVal) : List JVal :=
  if i < xs.length then xs.set i w
  else xs ++ List.replicate (i - xs.length) .undef ++ [w]

/-- Property assignment `v[k] = w` under strict mode: primitives, `null` and
`undefined` throw; arrays accept canonical indices and `length`
(non-index array properties are outside the modelled domain and are kept
unchanged); objects upsert the field. -/
def setPropJ (v : JVal) (k : String) (w : JVal) : Except String JVal :=
  match v with
  | .arr xs =>
    match parseCanonNat k with
    | some i => .ok (.arr (listSetPad xs i w))
    | none =>
      if k = "length" then
        match w with
        | .num n =>
          if n < 0 then .error "RangeError: invalid array length"
          else if n.toNat ≤ xs.length then .ok (.arr (xs.take n.toNat))
          else .ok (.arr (xs ++ List.replicate (n.toNat - xs.length) .undef))
        | _ => .error "RangeError: invalid array length"
      else .ok v
  | .jobj fs => .ok (.jobj (upsertField fs k w))
  | .undef => .error "TypeError: cannot set property of undefined"
  | .jnull => .error "TypeError: cannot set property of null"
  | _ => .error "TypeError: cannot assign to property of a primitive"

/-- Replace the subtree of `v` at `path` (a chain of existing property keys)
with `w`; this is how writes through the walker's current reference reach the
root. -/
def replaceAt (v : JVal) (path : List String) (w : JVal) : JVal :=
  match path with
  | [] => w
  | k :: rest =>
    match v with
    | .arr xs =>
      match parseCanonNat k with
      | some i => .arr (xs.set i (replaceAt (xs.getD i .undef) rest w))
      | none => v
    | .jobj fs => .jobj (upsertField fs k (replaceAt ((fs.lookup k).getD .undef) rest w))
    | _ => v

/-- The walker's `key` variable: a string, or a number after the
`key = ns.length` / negative-index adjustments, or `NaN`/`undefined` from a
failed coercion. -/
inductive KeyV where
  | ks (s : String)
  | kn (n : Int)
  | knan
  | kundef
deriving Repr, DecidableEq

/-- String coercion of a key when used as a property name. -/
def propKey : KeyV → String
  | .ks s => s
  | .kn n => toString n
  | .knan => "NaN"
  | .kundef => "undefined"

/-- JavaScript truthiness of the `key` variable. -/
def kvTruthy : KeyV → Bool
  | .ks s => !s.isEmpty
  | .kn n => n != 0
  | .knan => false
  | .kundef => false

/-- Numeric coercion of the `key` variable for the `key < 0` test. -/
def keyNumericValue : KeyV → Option Int
  | .ks s => jsPlusNumber s
  | .kn n => some n
  | .knan => none
  | .kundef => none

/-- The value of `ns.length` as a key (`key = ns.length` on array push
syntax): arrays and strings report their length, objects an explicit numeric
`length` field; anything else yields `undefined` (non-numeric `length`
fields are outside the modelled domain). -/
def jsLengthKey : JVal → KeyV
  | .arr xs => .kn xs.length
  | .jstr s => .kn s.length
  | .jobj fs =>
    match fs.lookup "length" with
    | some (.num n) => .kn n
    | _ => .kundef
  | _ => (.kundef)

/-- Numeric `ns.length` for the negative-index adjustment
(`key = +key + ns.length`); `none` makes the sum `NaN`. -/
def lengthNum : JVal → Option Int
  | .arr xs => some xs.length
  | .jstr s => some s.length
  | .jobj fs =>
    match fs.lookup "length" with
    | some (.num n) => some n
    | _ => none
  | _ => none

/-- The walker's running state: the (possibly already mutated) root, the
current `ns` value, and the property path locating `ns` inside the root
(`none` when `ns` is the dangling `undefined`). -/
structure WalkSt where
  root : JVal
  ns : JVal
  nsPath : Option (List String)
deriving Repr

/-- Result of one key step: continue walking, or an early `return exists`
taken in `has` mode. -/
inductive StepRes where
  | cont (st : WalkSt)
  | early (root : JVal) (ret : JVal)
deriving Repr

/-- Embeds one iteration of the inner loop of `handleDeepProperty` for the
dot-segment `rawKey`: the `isPush`/`isIndex` analysis, negative-index
wrapping, the `i || key || blen === 1` entry guard, intermediate filling,
`has` early return, and the final write/descend. -/
def stepKey (any has fill fillLast : Bool) (val : Option JVal)
    (iNat blen : Nat) (isLastDot isLastAll : Bool) (st : WalkSt) (rawKey : String) :
    Except String StepRes := do
  let set := val.isSome
  let cbi := rawKey.toList.findIdx? (· = ']')
  let isIndex := cbi.isSome
  let isPush := set && cbi == some 0
  let nextIsIndex := decide (blen > 1) && isLastDot
  let kv0 : KeyV :=
    if isPush then jsLengthKey st.ns
    else if isIndex then .ks (rawKey.dropRight 1)
    else .ks rawKey
  let kv :=
    if isIndex then
      match keyNumericValue kv0 with
      | some t =>
        if t < 0 then
          match lengthNum st.ns with
          | some len => KeyV.kn (t + len)
          | none => KeyV.knan
        else kv0
      | none => kv0
    else kv0
  if iNat > 0 || kvTruthy kv || blen == 1 then
    let k := propKey kv
    let ex ← if any then keyInJ st.ns k else .ok (hasOwnJ st.ns k)
    if fill && (!isLastAll || fillLast) && !ex then
      let fresh := if nextIsIndex || (fillLast && isLastAll) then JVal.arr [] else JVal.jobj []
      match st.nsPath with
      | none => .error "TypeError: cannot set property of undefined"
      | some p =>
        let ns' ← setPropJ st.ns k fresh
        .ok (.cont ⟨replaceAt st.root p ns', fresh, some (p ++ [k])⟩)
    else if has && (isLastAll || !ex) then
      .ok (.early st.root (.jbool ex))
    else if set && isLastAll then
      if isPrimitiveJ st.ns then .error "TypeError: property cannot be written"
      else
        match st.nsPath with
        | none => .error "TypeError: cannot set property of undefined"
        | some p =>
          let ns' ← setPropJ st.ns k (val.getD .undef)
          let root' := replaceAt st.root p ns'
          if ex then .ok (.cont ⟨root', getPropJ ns' k, some (p ++ [k])⟩)
          else .ok (.cont ⟨root', .undef, none⟩)
    else
      if ex then .ok (.cont ⟨st.root, getPropJ st.ns k, st.nsPath.map (· ++ [k])⟩)
      else .ok (.cont ⟨st.root, .undef, none⟩)
  else
    .ok (.cont st)

/-- The inner (period-split) loop over one bracket segment. -/
def walkDots (any has fill fillLast : Bool) (val : Option JVal)
    (iNat blen : Nat) (isLastBracket : Bool) :
    List String → WalkSt → Except String StepRes
  | [], st => .ok (.cont st)
  | [k], st => stepKey any has fill fillLast val iNat blen true isLastBracket st k
  | k :: k' :: rest, st => do
    match ← stepKey any has fill fillLast val iNat blen false false st k with
    | .early r v => .ok (.early r v)
    | .cont st' => walkDots any has fill fillLast val iNat blen isLastBracket (k' :: rest) st'

/-- The outer (bracket-split) loop of `handleDeepProperty`. -/
def walkBrackets (any has fill fillLast : Bool) (val : Option JVal) (blen : Nat) :
    Nat → List (List String) → WalkSt → Except String StepRes
  | _, [], st => .ok (.cont st)
  | iNat, [ps], st => walkDots any has fill fillLast val iNat blen true ps st
  | iNat, ps :: ps' :: rest, st => do
    match ← walkDots any has fill fillLast val iNat blen false ps st with
    | .early r v => .ok (.early r v)
    | .cont st' => walkBrackets any has fill fillLast val blen (iNat + 1) (ps' :: rest) st'

/-- Result of a `handleDeepProperty` call: the possibly mutated root, the
JavaScript return value, the path of the returned reference when it is a
location inside the root, and the number of path-string decompositions
(split or range-regex match) the call performed — the resource a parse cache
would save. -/
structure DeepOut where
  root : JVal
  ret : JVal
  retPath : Option (List String)
  parses : Nat
deriving Repr

/-- Parsing of `PROPERTY_RANGE_REG` (line 843), the regular expression
`(.*?)\[([-\d]*)\.\.([-\d]*)\](.*)` anchored on both sides: the lazy leading
group stops at the first opening bracket from which the bracketed range can
be completed; inside the brackets the character classes cannot contain `.`
or `]`, so their greedy matches are the maximal runs of digits and minus
signs.  Returns leading, start, end and trailing captures. -/
def rangeChar (c : Char) : Bool := c.isDigit || c = '-'

/-- Match `([-\d]*)\.\.([-\d]*)\](.*)` against the characters following an
opening bracket. -/
def matchRangeAfter (cs : List Char) : Option (String × String × String) :=
  let run1 := cs.takeWhile rangeChar
  let rest1 := cs.dropWhile rangeChar
  match rest1 with
  | '.' :: '.' :: rest2 =>
    let run2 := rest2.takeWhile rangeChar
    let rest3 := rest2.dropWhile rangeChar
    match rest3 with
    | ']' :: rest4 =>
      some (String.mk run1, String.mk run2, String.mk rest4)
    | _ => none
  | _ => none

/-- Scan for the first opening bracket at which the range pattern matches. -/
def findRangeSplit : List Char → List Char → Option (String × String × String × String)
  | _, [] => none
  | acc, c :: rest =>
    if c = '[' then
      match matchRangeAfter rest with
      | some (s, e, tr) => some (String.mk acc.reverse, s, e, tr)
      | none => findRangeSplit (c :: acc) rest
    else findRangeSplit (c :: acc) rest

/-- Embeds `key.match(PROPERTY_RANGE_REG)`. -/
def parseRangeKey (key : String) : Option (String × String × String × String) :=
  findRangeSplit [] key.toList

/-- Embeds `Array.prototype.slice(start, end)`; `none` arguments model `NaN`
(coerced to 0). -/
def jsSlice (xs : List JVal) (s e : Option Int) : List JVal :=
  let len : Int := xs.length
  let rel : Option Int → Int := fun a =>
    match a with
    | none => 0
    | some v => if v < 0 then max (len + v) 0 else min v len
  (xs.take (rel e).toNat).drop (rel s).toNat

/-- The list of indices of the range-set loop `for (i = start; i < end; i++)`;
a `NaN` bound yields no iterations. -/
def rangeIdxList (s e : Option Int) : List Int :=
  match s, e with
  | some a, some b => (List.range (b - a).toNat).map (fun i => a + i)
  | _, _ => []

mutual

/-- Embeds `handleDeepProperty(obj, key, any, has, fill, fillLast, val)`.
Returns `none` when the fuel for the (source-unbounded) mutual recursion with
`handleArrayIndexRange` runs out. -/
def handleDeepProperty (fuel : Nat) (obj : JVal) (key : String)
    (any has fill fillLast : Bool) (val : Option JVal) :
    Option (Except String DeepOut) :=
  match fuel with
  | 0 => none
  | fuel + 1 =>
    if containsDotDot key.toList then
      handleArrayIndexRange fuel obj key any val
    else
      let ns0 := if jsTruthy obj then obj else .undef
      let path0 := if jsTruthy obj then some ([] : List String) else none
      let segs := (splitOnChar '[' key.toList).map
        (fun p => (splitOnChar '.' p).map String.mk)
      some (do
        match ← walkBrackets any has fill fillLast val segs.length 0 segs ⟨obj, ns0, path0⟩ with
        | .cont st => .ok ⟨st.root, st.ns, st.nsPath, 1⟩
        | .early r v => .ok ⟨r, v, none, 1⟩)
termination_by structural fuel

/-- Embeds `handleArrayIndexRange(obj, key, any, val)`: match the range
regex (returning `undefined` and mutating nothing on failure), resolve the
leading path (filling it for sets), assert the target is an array, and
either write `val` through `i + trailing` for every index of the inclusive
range or slice the range out (mapping a trailing path over the slice). -/
def handleArrayIndexRange (fuel : Nat) (obj : JVal) (key : String)
    (any : Bool) (val : Option JVal) : Option (Except String DeepOut) :=
  match fuel with
  | 0 => none
  | fuel + 1 =>
    match parseRangeKey key with
    | none => some (.ok ⟨obj, .undef, none, 1⟩)
    | some (leading, sstr, estr, trailing) =>
      let set := val.isSome
      let step1 : Option (Except String (JVal × JVal × Option (List String) × Nat)) :=
        if leading.isEmpty then some (.ok (obj, obj, some [], 0))
        else
          match handleDeepProperty fuel obj leading any false set true none with
          | none => none
          | some (.error e) => some (.error e)
          | some (.ok o) => some (.ok (o.root, o.ret, o.retPath, o.parses))
      match step1 with
      | none => none
      | some (.error e) => some (.error e)
      | some (.ok (root1, arrv, arrPath, p1)) =>
        match arrv with
        | .arr xs =>
          let start := if sstr.isEmpty then some 0 else jsPlusNumber sstr
          let end0 := if estr.isEmpty then some (xs.length : Int) else jsPlusNumber estr
          let endv := if end0 = some (-1) then some (xs.length : Int) else end0.map (· + 1)
          if set then
            match rangeSetLoop fuel (rangeIdxList start endv) trailing any
                (val.getD .undef) arrv with
            | none => none
            | some (.error e) => some (.error e)
            | some (.ok (arr', p2)) =>
              some (.ok ⟨replaceAt root1 (arrPath.getD []) arr', arr', arrPath, 1 + p1 + p2⟩)
          else
            let sliced := jsSlice xs start endv
            if trailing.isEmpty then
              some (.ok ⟨root1, .arr sliced, none, 1 + p1⟩)
            else
              let tr := if trailing.toList.headD ' ' = '.' then trailing.drop 1 else trailing
              match rangeMapLoop fuel sliced tr with
              | none => none
              | some (.error e) => some (.error e)
              | some (.ok (rets, p2)) =>
                some (.ok ⟨root1, .arr rets, none, 1 + p1 + p2⟩)
        | _ => some (.error "TypeError: array required")
termination_by structural fuel

/-- The range-set loop: write `val` through `i + trailing` for each index,
threading the mutated array. -/
def rangeSetLoop (fuel : Nat) (idxs : List Int) (trailing : String) (any : Bool)
    (val : JVal) (arrv : JVal) : Option (Except String (JVal × Nat)) :=
  match fuel with
  | 0 => none
  | fuel + 1 =>
    match idxs with
    | [] => some (.ok (arrv, 0))
    | i :: rest =>
      match handleDeepProperty fuel arrv (toString i ++ trailing) any false true false (some val) with
      | none => none
      | some (.error e) => some (.error e)
      | some (.ok o) =>
        match rangeSetLoop fuel rest trailing any val o.root with
        | none => none
        | some (.error e) => some (.error e)
        | some (.ok (arr', p)) => some (.ok (arr', o.parses + p))
termination_by structural fuel

/-- The trailing map of a range get: `arr.map(el => handleDeepProperty(el, trailing))`. -/
def rangeMapLoop (fuel : Nat) (els : List JVal) (tr : String) :
    Option (Except String (List JVal × Nat)) :=
  match fuel with
  | 0 => none
  | fuel + 1 =>
    match els with
    | [] => some (.ok ([], 0))
    | el :: rest =>
      match handleDeepProperty fuel el tr false false false false none with
      | none => none
      | some (.error e) => some (.error e)
      | some (.ok o) =>
        match rangeMapLoop fuel rest tr with
        | none => none
        | some (.error e) => some (.error e)
        | some (.ok (vs, p)) => some (.ok (o.ret :: vs, o.parses + p))
termination_by structural fuel

end

/-- Embeds `deepGetProperty(obj, key)` (line 1217, `any` defaulting falsy):
the JavaScript return value. -/
def deepGetProperty (fuel : Nat) (obj : JVal) (key : String) :
    Option (Except String JVal) :=
  (handleDeepProperty fuel obj key false false false false none).map
    (fun r => r.map (fun o => o.ret))

/-- Embeds `deepHasProperty(obj, key)` (line 1213, `any` defaulting falsy). -/
def deepHasProperty (fuel : Nat) (obj : JVal) (key : String) :
    Option (Except String JVal) :=
  (handleDeepProperty fuel obj key false true false false none).map
    (fun r => r.map (fun o => o.ret))

/-- Embeds `deepSetProperty(obj, key, val)` (line 1221): runs the walker with
`fill` set and returns `obj` (mutated in place, modelled by the updated
root). -/
def deepSetProperty (fuel : Nat) (obj : JVal) (key : String) (val : JVal) :
    Option (Except String JVal) :=
  (handleDeepProperty fuel obj key false false true false (some val)).map
    (fun r => r.map (fun o => o.root))

/-- The number of path-string decompositions (splits / range-regex matches) a
`deepGetProperty` call performs: the work a parse-memoization cache would
save on a hit. -/
def deepGetPropertyParses (fuel : Nat) (obj : JVal) (key : String) : Option Nat :=
  match handleDeepProperty fuel obj key false false false false none with
  | some (.ok o) => some o.parses
  | _ => none

/-! ### Memoization (`memoizeFunction`, lines 1989-2008)

`memoizeFunction` keeps a string-keyed table and an insertion counter; when
the counter reaches `INTERNAL_MEMOIZE_LIMIT` at a miss the whole table is
discarded.  Its only client in the source is the format-string compiler
(`createFormatMatcher`, line 1846); `handleDeepProperty` re-splits its key on
every call. -/

/-- The `INTERNAL_MEMOIZE_LIMIT` constant (line 1989). -/
def INTERNAL_MEMOIZE_LIMIT : Nat := 1000

/-- The closure state of a function returned by `memoizeFunction`. -/
structure MemoSt (β : Type) where
  memo : List (String × β)
  counter : Nat
deriving Repr

/-- Embeds one call of the function returned by `memoizeFunction(fn)`:
returns the result, the new closure state, and whether the underlying `fn`
ran (a cache miss). -/
def memoizeFunctionStep {β : Type} (f : String → β) (st : MemoSt β) (key : String) :
    β × MemoSt β × Bool :=
  match st.memo.lookup key with
  | some v => (v, st, false)
  | none =>
    let st1 : MemoSt β := if st.counter = INTERNAL_MEMOIZE_LIMIT then ⟨[], 0⟩ else st
    (f key, ⟨(key, f key) :: st1.memo, st1.counter + 1⟩, true)

/-- Invariant of every reachable `memoizeFunction` state: cached entries are
exactly the underlying function's results, and the table is bounded by the
counter, itself bounded by the limit. -/
def MemoInv {β : Type} (f : String → β) (st : MemoSt β) : Prop :=
  (∀ p ∈ st.memo, p.2 = f p.1) ∧
  st.memo.length ≤ st.counter ∧ st.counter ≤ INTERNAL_MEMOIZE_LIMIT

/-- The parsed representation `handleDeepProperty` computes from a plain path
string (the bracket split refined by the period split). -/
def pathReprOfKey (key : String) : List (List String) :=
  (splitOnChar '[' key.toList).map (fun p => (splitOnChar '.' p).map String.mk)

/-- Modelled from the spec: the spec asserts that "every path-expression
string is parsed into a memoized representation held in a bounded cache of
capacity 1000 with full-reset eviction"; no such cache exists in the source
(`handleDeepProperty` re-splits its key on every call, and `memoizeFunction`
serves only the format-string compiler), so this definition follows the
spec's words — a `get` whose parse step is routed through a
`memoizeFunction`-style cache keyed by the path string.  It returns the
result, the cache state after the call, and the number of parses performed
(`0` on a cache hit). -/
def deepGetPropertyMemoSpec (fuel : Nat) (st : MemoSt (List (List String)))
    (obj : JVal) (key : String) :
    Option (Except String JVal) × MemoSt (List (List String)) × Nat :=
  let step := memoizeFunctionStep pathReprOfKey st key
  (deepGetProperty fuel obj key, step.2.1, if step.2.2 then 1 else 0)

/-! ### Equality and serialization (`isEqual` lines 1465-1489,
`objectIsEqual` lines 1491-1516, `serializeInternal` lines 1524-1549,
`serializeDeep` lines 1551-1557, `iterateWithCyclicCheck` lines 1559-1603)

Values live in an explicit heap so that self-referential structures exist: a
value is a primitive or a reference to a heap node; a node is a plain
object, an array, or a non-serializable host object (which also stands for
functions, class instances and other non-plain objects).  JavaScript numbers
are modelled as integers together with negative zero and NaN — exactly the
distinctions this engine branches on.  Sets, Maps and Errors do not occur in
the modelled heap, so the corresponding `isEqual` branches are dead. -/

/-- A JavaScript number as the equality engine distinguishes them. -/
inductive JSNum where
  | int (n : Int)
  | negZero
  | nan
deriving Repr, DecidableEq

/-- A primitive value. -/
inductive Prim where
  | undef
  | pnull
  | num (n : JSNum)
  | pstr (s : String)
  | pbool (b : Bool)
deriving Repr, DecidableEq

/-- A runtime value: a primitive or a reference into the heap. -/
inductive RVal where
  | prim (p : Prim)
  | ref (r : Nat)
deriving Repr, DecidableEq

/-- A heap node. -/
inductive HNode where
  | obj (fields : List (String × RVal))
  | arrn (elems : List RVal)
  | host
deriving Repr, DecidableEq

/-- The heap: node `r` is `nodes.getD r .host` (dangling references cannot
arise in JavaScript; they behave as host objects here). -/
abbrev Heap := List HNode

/-- The `typeof` operator on primitives. -/
def typeofPrim : Prim → String
  | .undef => "undefined"
  | .pnull => "object"
  | .num _ => "number"
  | .pstr _ => "string"
  | .pbool _ => "boolean"

/-- The `typeof` operator (heap nodes are all of type `"object"`). -/
def typeofR : RVal → String
  | .prim p => typeofPrim p
  | .ref _ => "object"

/-- String coercion of a number (`String(-0)` is `"0"`). -/
def jsNumToString : JSNum → String
  | .int n => toString n
  | .negZero => "0"
  | .nan => "NaN"

/-- String coercion of a primitive. -/
def primToString : Prim → String
  | .undef => "undefined"
  | .pnull => "null"
  | .num n => jsNumToString n
  | .pstr s => s
  | .pbool b => if b then "true" else "false"

/-- Embeds `classToString` (line 809). -/
def classToStringR (h : Heap) : RVal → String
  | .prim .undef => "[object Undefined]"
  | .prim .pnull => "[object Null]"
  | .prim (.num _) => "[object Number]"
  | .prim (.pstr _) => "[object String]"
  | .prim (.pbool _) => "[object Boolean]"
  | .ref r =>
    match h.getD r .host with
    | .obj _ => "[object Object]"
    | .arrn _ => "[object Array]"
    | .host => "[object Host]"

/-- Embeds `isSerializable` (line 969): known classes and plain objects;
null, undefined and host objects are not serializable. -/
def isSerializableR (h : Heap) : RVal → Bool
  | .prim .undef => false
  | .prim .pnull => false
  | .prim _ => true
  | .ref r =>
    match h.getD r .host with
    | .obj _ => true
    | .arrn _ => true
    | .host => false

/-- Strict equality `===` on numbers (`0 === -0`, `NaN !== NaN`). -/
def jsNumStrictEq : JSNum → JSNum → Bool
  | .nan, _ => false
  | _, .nan => false
  | .int a, .int b => a == b
  | .negZero, .negZero => true
  | .int a, .negZero => a == 0
  | .negZero, .int b => b == 0

/-- Strict equality `===` on primitives. -/
def primStrictEq : Prim → Prim → Bool
  | .undef, .undef => true
  | .pnull, .pnull => true
  | .num a, .num b => jsNumStrictEq a b
  | .pstr a, .pstr b => a == b
  | .pbool a, .pbool b => a == b
  | _, _ => false

/-- Strict equality `===`: primitive comparison or reference identity. -/
def strictEqR : RVal → RVal → Bool
  | .prim a, .prim b => primStrictEq a b
  | .ref a, .ref b => a == b
  | _, _ => false

/-- Whether a value is the number zero (positive or negative). -/
def isJsZeroV : RVal → Bool
  | .prim (.num (.int n)) => n == 0
  | .prim (.num .negZero) => true
  | _ => false

/-- Whether a value is negative zero (`1 / v === -Infinity`). -/
def isNegZeroV : RVal → Bool
  | .prim (.num .negZero) => true
  | _ => false

/-- Whether a value is a reference to an object or array node (the values
the traversal can descend into). -/
def validObjArr (h : Heap) : RVal → Bool
  | .ref r =>
    match h.getD r .host with
    | .obj _ => true
    | .arrn _ => true
    | .host => false
  | .prim _ => false

/-- Array elements as (canonical index name, value) pairs — the own
enumerable properties of an array. -/
def arrIndexFields (es : List RVal) : List (String × RVal) :=
  es.enum.map (fun p => (toString p.1, p.2))

/-- Code-unit lexicographic comparison of `Array.prototype.sort` on
strings, as a boolean on character lists. -/
def charsLe : List Char → List Char → Bool
  | [], _ => true
  | _ :: _, [] => false
  | a :: as, b :: bs =>
    if a.toNat = b.toNat then charsLe as bs else decide (a.toNat < b.toNat)

/-- String comparison used by the key sort. -/
def sLe (s t : String) : Bool := charsLe s.toList t.toList

/-- Embeds `getKeys(obj).sort()`: the default comparator sorts by code
units; any stable sort yields the same sorted list, modelled here by
insertion sort over `sLe`. -/
def sortStrings (l : List String) : List String :=
  l.insertionSort (fun s t => sLe s t = true)

/-- Embeds the sorted-key iteration order of `iterateWithCyclicCheck` with
`sortedKeys` set: the sorted key list paired with the property reads
`obj[key]`. -/
def serializeDeepKeys (fields : List (String × RVal)) : List (String × RVal) :=
  (sortStrings (fields.map (fun p => p.1))).filterMap
    (fun k => (fields.lookup k).map (fun v => (k, v)))

/-- Embeds `indexOf(refs, obj)` (line 1726), as an option. -/
def refIndexOf (refs : List Nat) (r : Nat) : Option Nat :=
  match refs with
  | [] => none
  | x :: t => if x = r then some 0 else (refIndexOf t r).map (· + 1)

/-- The reference-table step for a non-serializable object (lines
1535-1540): its first-seen index, appending on first sight. -/
def hostRefToken (refs : List Nat) (r : Nat) : Nat × List Nat :=
  match refIndexOf refs r with
  | some i => (i, refs)
  | none => (refs.length, refs ++ [r])

/-- Embeds the host engine's cycle-guarded `Array.prototype.join` (reached
through `obj.toString()`): elements stringify — `undefined`/`null` to the
empty string, nested arrays recursively unless already being joined (the
engine's join stack, modelled by `visited`).  `none` signals fuel
exhaustion; nesting depth is bounded by the number of array nodes, so
`h.length + 1` fuel always suffices. -/
def joinRun (h : Heap) (fuel : Nat) (visited : List Nat) (es : List RVal) :
    Option String :=
  match es with
  | [] => some ""
  | v :: rest =>
    match fuel with
    | 0 => none
    | fuel + 1 =>
      let s? : Option String :=
        match v with
        | .prim .undef => some ""
        | .prim .pnull => some ""
        | .prim p => some (primToString p)
        | .ref r =>
          match h.getD r .host with
          | .obj _ => some "[object Object]"
          | .host => some "[object Host]"
          | .arrn es2 =>
            if visited.contains r then some ""
            else joinRun h fuel (r :: visited) es2
      let rest? : Option String :=
        if rest.isEmpty then some ""
        else (joinRun h fuel visited rest).map (fun t => "," ++ t)
      match s?, rest? with
      | some s, some t => some (s ++ t)
      | _, _ => none
termination_by structural fuel

/-- The number of own properties of a heap node. -/
def nodeSize : HNode → Nat
  | .obj fs => fs.length
  | .arrn es => es.length
  | .host => 0

/-- The largest node size in the heap (used for fuel bounds). -/
def maxFields (h : Heap) : Nat :=
  h.foldr (fun n acc => max (nodeSize n) acc) 0

/-- Fuel that always suffices for the cycle-guarded join (each level of the
chain walks at most `maxFields` elements, and the chain visits each array
node at most once). -/
def joinFuel (h : Heap) : Nat := (maxFields h + 2) * (h.length + 2)

/-- Fuel that always suffices for the equality and serialization traversals:
the stack discipline bounds the recursion depth by the heap size plus a
constant, and each level walks at most `maxFields` properties. -/
def boundFuel (h : Heap) : Nat := (maxFields h + 4) * (h.length + 3) + 1

/-- String coercion `String(v)` / `v.valueOf().toString()` of a heap value. -/
def jsToStringR (h : Heap) (v : RVal) : Option String :=
  match v with
  | .prim p => some (primToString p)
  | .ref r =>
    match h.getD r .host with
    | .obj _ => some "[object Object]"
    | .arrn es => joinRun h (joinFuel h) [r] es
    | .host => some "[object Host]"

mutual

/-- Embeds `serializeInternal(obj, refs, stack)`: primitives (except NaN)
yield `typeof + String(value)`; NaN falls through to
`typeof + className + String(NaN)`; non-serializable objects yield their
first-seen index in the reference table; objects and arrays yield
`typeof + className + serializeDeep + toString`.  `none` is fuel exhaustion
of the source-unbounded recursion. -/
def serializeInternal (h : Heap) (fuel : Nat) (obj : RVal) (refs : List Nat)
    (stack : List RVal) : Option (String × List Nat) :=
  match obj with
  | .prim (.num .nan) => some ("number[object Number]NaN", refs)
  | .prim p => some (typeofPrim p ++ primToString p, refs)
  | .ref r =>
    match h.getD r .host with
    | .host =>
      let t := hostRefToken refs r
      some (toString t.1, t.2)
    | .obj fields =>
      match fuel with
      | 0 => none
      | f + 1 =>
        match szFields h f (serializeDeepKeys fields) refs stack with
        | none => none
        | some d =>
          match jsToStringR h (.ref r) with
          | none => none
          | some ts => some ("object" ++ "[object Object]" ++ d.1 ++ ts, d.2)
    | .arrn es =>
      match fuel with
      | 0 => none
      | f + 1 =>
        match szFields h f (serializeDeepKeys (arrIndexFields es)) refs stack with
        | none => none
        | some d =>
          match jsToStringR h (.ref r) with
          | none => none
          | some ts => some ("object" ++ "[object Array]" ++ d.1 ++ ts, d.2)
termination_by structural fuel

/-- Embeds the iteration of `serializeDeep`: for each (sorted) key, a value
already on the stack (once the stack is deeper than one) contributes the
`'CYC'` sentinel; otherwise the value is pushed and serialized. -/
def szFields (h : Heap) (fuel : Nat) (fields : List (String × RVal))
    (refs : List Nat) (stack : List RVal) : Option (String × List Nat) :=
  match fields with
  | [] => some ("", refs)
  | (k, w) :: rest =>
    match fuel with
    | 0 => none
    | f + 1 =>
      if decide (stack.length > 1) && stack.any (fun s => strictEqR s w) then
        (szFields h f rest refs stack).map (fun d => ("CYC" ++ d.1, d.2))
      else
        match serializeInternal h f w refs (stack ++ [w]) with
        | none => none
        | some t =>
          match szFields h f rest t.2 stack with
          | none => none
          | some d => some (k ++ t.1 ++ d.1, d.2)
termination_by structural fuel
end

/-- Property read `b[k]` on the serializable heap values the equality walk
reaches. -/
def getPropR (h : Heap) (v : RVal) (k : String) : RVal :=
  match v with
  | .ref r =>
    match h.getD r .host with
    | .obj fs => (fs.lookup k).getD (.prim .undef)
    | .arrn es =>
      match parseCanonNat k with
      | some i => es.getD i (.prim .undef)
      | none => if k = "length" then .prim (.num (.int es.length)) else .prim .undef
    | .host => .prim .undef
  | .prim _ => .prim (.undef)

/-- The `key in b` test of `objectIsEqual` (inherited prototype members are
outside the modelled data domain). -/
def hasPropAnyR (h : Heap) (v : RVal) (k : String) : Bool :=
  match v with
  | .ref r =>
    match h.getD r .host with
    | .obj fs => fs.any (fun p => p.1 == k)
    | .arrn es =>
      match parseCanonNat k with
      | some i => i < es.length
      | none => k == "length"
    | .host => false
  | .prim _ => false

/-- The value of `v.length` for the quick length comparison of
`objectIsEqual` (`undefined` when absent, so two plain objects without a
`length` field pass the check). -/
def lengthPropV (h : Heap) (v : RVal) : RVal :=
  match v with
  | .ref r =>
    match h.getD r .host with
    | .arrn es => .prim (.num (.int es.length))
    | .obj fs => (fs.lookup "length").getD (.prim .undef)
    | .host => .prim .undef
  | .prim (.pstr s) => .prim (.num (.int s.length))
  | _ => .prim (.undef)

/-- The own enumerable properties of `a` in insertion order, when
`isObjectType(a.valueOf())` holds (objects and arrays). -/
def aFieldsOf (h : Heap) (v : RVal) : Option (List (String × RVal)) :=
  match v with
  | .ref r =>
    match h.getD r .host with
    | .obj fs => some fs
    | .arrn es => some (arrIndexFields es)
    | .host => none
  | .prim _ => none

/-- Embeds `getKeys(b).length`. -/
def bKeysCount (h : Heap) (v : RVal) : Nat :=
  match v with
  | .ref r =>
    match h.getD r .host with
    | .obj fs => fs.length
    | .arrn es => es.length
    | .host => 0
  | .prim _ => 0

/-- The final canonical-string comparison of `objectIsEqual` (line 1515):
`a.valueOf().toString() === b.valueOf().toString()`. -/
def finalToStringEq (h : Heap) (a b : RVal) : Option Bool :=
  match jsToStringR h a, jsToStringR h b with
  | some sa, some sb => some (sa == sb)
  | _, _ => none

mutual

/-- Embeds `isEqual(a, b, stack)`: the `===` fast path (with `0` and `-0`
unequal), the class-tag comparison, and the structural comparison for
serializable values.  The Set/Map/Error branches are dead for the modelled
heap, and anything else is unequal.  `none` is fuel exhaustion. -/
def isEqualR (h : Heap) (fuel : Nat) (a b : RVal) (stack : List RVal) : Option Bool :=
  if strictEqR a b then
    some (!isJsZeroV a || (isNegZeroV a == isNegZeroV b))
  else if classToStringR h a ≠ classToStringR h b then
    some false
  else if isSerializableR h a && isSerializableR h b then
    match fuel with
    | 0 => none
    | f + 1 => objectIsEqualR h f a b stack
  else
    some false
termination_by structural fuel

/-- Embeds `objectIsEqual(a, b, aClass, stack)`: the `typeof` check, the
quick `length` comparison and keyed walk for object-typed values, the key
count check against `b`, and the final canonical-string comparison. -/
def objectIsEqualR (h : Heap) (fuel : Nat) (a b : RVal) (stack : List RVal) :
    Option Bool :=
  if typeofR a != typeofR b then some false
  else
    match aFieldsOf h a with
    | some fs =>
      if !strictEqR (lengthPropV h a) (lengthPropV h b) then some false
      else
        match fuel with
        | 0 => none
        | f + 1 =>
          match eqFields h f fs b stack with
          | none => none
          | some propsEqual =>
            if !propsEqual || fs.length ≠ bKeysCount h b then some false
            else finalToStringEq h a b
    | none => finalToStringEq h a b
termination_by structural fuel

/-- Embeds the `iterateWithCyclicCheck` walk of `objectIsEqual`: each own
property of `a`, in insertion order, with the stack-based cycle sentinel
(a value already on the stack — once the stack is deeper than one — is not
compared); a key missing from `b` or an unequal value makes the walk false,
but the walk always visits every property (the callback's early-break value
is swallowed by `next`). -/
def eqFields (h : Heap) (fuel : Nat) (fields : List (String × RVal)) (b : RVal)
    (stack : List RVal) : Option Bool :=
  match fields with
  | [] => some true
  | (k, w) :: rest =>
    match fuel with
    | 0 => none
    | f + 1 =>
      if decide (stack.length > 1) && stack.any (fun s => strictEqR s w) then
        eqFields h f rest b stack
      else if !hasPropAnyR h b k then
        (eqFields h f rest b stack).map (fun _ => false)
      else
        match isEqualR h f w (getPropR h b k) (stack ++ [w]) with
        | none => none
        | some ew =>
          (eqFields h f rest b stack).map (fun prest => ew && prest)
termination_by structural fuel
end

/-! ### Hashed memoization (`createHashedMemoizeFunction`, lines 2132-2148,
and the default hash `collectArguments`, line 2124)

`Function#memoize` with the default hash serializes the freshly collected
argument array: `key = serializeInternal(collectArguments(...), refs)` with a
caller-scoped `refs` table persisting across calls. -/

/-- Serialization of the freshly collected arguments array: it is not a heap
node and nothing references it, so the cycle stack starts empty and the join
guard holds only it. -/
def serializeArgsArray (h : Heap) (args : List RVal) (refs : List Nat) :
    Option (String × List Nat) :=
  match szFields h (boundFuel h + args.length) (serializeDeepKeys (arrIndexFields args)) refs [] with
  | none => none
  | some d =>
    match joinRun h (joinFuel h + args.length) [] args with
    | none => none
    | some js => some ("object" ++ "[object Array]" ++ d.1 ++ js, d.2)

/-- The closure state of a function returned by
`createHashedMemoizeFunction`. -/
structure HashedMemoSt where
  map : List (String × RVal)
  refs : List Nat
  counter : Nat
deriving Repr, DecidableEq

/-- Embeds one call of a function memoized with the default hash: serialize
the argument array into a key (updating the reference table), return the
cached result on a hit; on a miss, reset everything when the counter has
reached the limit (`limit` is `none` when absent, and `counter === undefined`
never holds), then cache and return `f args`. -/
def hashedMemoizeStep (h : Heap) (f : List RVal → RVal) (limit : Option Nat)
    (st : HashedMemoSt) (args : List RVal) : Option (RVal × HashedMemoSt) :=
  match serializeArgsArray h args st.refs with
  | none => none
  | some (key, refs') =>
    match st.map.lookup key with
    | some v => some (v, ⟨st.map, refs', st.counter⟩)
    | none =>
      let st1 : HashedMemoSt :=
        if some st.counter = limit then ⟨[], [], 0⟩ else ⟨st.map, refs', st.counter⟩
      some (f args, ⟨(key, f args) :: st1.map, st1.refs, st1.counter + 1⟩)

/-! ### Measures for the termination analysis of the traversals

The cycle stack admits at most two entries before the sentinel check engages
(`stack.length > 1`), after which every pushed value must be new on the
stack; pushed values that are descended into are object/array references, so
the recursion depth is bounded by the heap size plus a constant.  `stackRoom`
is the standard decreasing measure for this argument. -/

/-- The number of object/array nodes not yet on the traversal stack. -/
def unvisitedCount (h : Heap) (stack : List RVal) : Nat :=
  (List.range h.length).countP
    (fun i => validObjArr h (.ref i) && !(stack.any (fun s => strictEqR s (.ref i))))

/-- The decreasing measure of the traversal: unvisited nodes, plus the two
free pushes the delayed sentinel check admits, plus one. -/
def stackRoom (h : Heap) (stack : List RVal) : Nat :=
  unvisitedCount h stack + (2 - min stack.length 2) + 1

/-- The number of array nodes not yet on the join chain. -/
def unvisitedArrCount (h : Heap) (visited : List Nat) : Nat :=
  (List.range h.length).countP (fun i =>
    (match h.getD i .host with | .arrn _ => true | _ => false) && !visited.contains i)

/-! ### Concrete fixtures used by the theorems below -/

/-- The spec's example array `[10, 20, 30, 40]`. -/
def arrTen : JVal := .arr [.num 10, .num 20, .num 30, .num 40]

/-- A nested object `{a: {b: 7}}` for plain path access. -/
def pathObj : JVal := .jobj [("a", .jobj [("b", .num 7)])]

/-- An `Object`-namespace method table containing instance methods named
`get`, `set` and `isEqual`. -/
def objMethodsFixture : List (String × MethodRec) :=
  [("get", ⟨true, false, none⟩), ("set", ⟨true, false, none⟩),
   ("isEqual", ⟨true, true, none⟩)]

/-- An `extend()` call with no options. -/
def extendOptsDefault : ExtendOpts := ⟨none, [], none, [], none⟩

/-- The `Object` namespace as an extension target. -/
def objExtendInput : ExtendInput := ⟨true, "Object", [], [], objMethodsFixture⟩

/-- A function to memoize: returns its first argument (`undefined` when
absent). -/
def memoFixtureF : List RVal → RVal := fun args => args.headD (.prim .undef)

/-- A dispatch state in which the `Number` namespace's `display` prototype
entry is (wrongly) itself a disambiguator. -/
def dispatchFixture : DispatchState :=
  ⟨[("[object Number]", ⟨[("display", .disambiguator "display")]⟩)], ⟨[]⟩⟩

/-- The heap node layout `{a: 1, b: [1, 2]}` of the spec's serialization
example (object fields in one insertion order). -/
def permHeapBase : Heap := [.obj [], .arrn [.prim (.num (.int 1)), .prim (.num (.int 2))]]

/-- Fields `a: 1, b: ref` in insertion order. -/
def permFieldsAB : List (String × RVal) := [("a", .prim (.num (.int 1))), ("b", .ref 1)]

/-- The same fields inserted in the opposite order. -/
def permFieldsBA : List (String × RVal) := [("b", .ref 1), ("a", .prim (.num (.int 1)))]

/-- An array holding two distinct host objects. -/
def hostPairHeap : Heap := [.arrn [.ref 1, .ref 2], .host, .host]

/-- A self-referential object `obj.a = obj`. -/
def cycHeap : Heap := [.obj [("a", .ref 0)]]

/-- Two structurally identical self-referential objects. -/
def cycPairHeap : Heap := [.obj [("a", .ref 0)], .obj [("a", .ref 1)]]

/-- Two copies of the spec's `{a: 1, b: [1, 2]}` whose fields were inserted
in opposite orders, sharing the array node. -/
def permPairHeap : Heap :=
  [.obj [("a", .prim (.num (.int 1))), ("b", .ref 2)],
   .obj [("b", .ref 2), ("a", .prim (.num (.int 1)))],
   .arrn [.prim (.num (.int 1)), .prim (.num (.int 2))]]

/-! ## Theorems -/

/-! ### Helper lemmas -/

lemma putProp_lookup_self (l : List (String × Nat)) (k : String) (v : Nat) :
    (putProp l k v).lookup k = some v := by
  induction l with
  | nil => simp [putProp, List.lookup]
  | cons p t ih =>
    obtain ⟨k', v'⟩ := p
    by_cases h : k' = k
    · subst h
      simp [putProp, List.lookup]
    · simp only [putProp, if_neg h, List.lookup]
      rw [show (k == k') = false by simpa [beq_iff_eq] using fun hkk => h hkk.symm]
      exact ih

lemma lookup_mem_pairs {β : Type} (l : List (String × β)) (k : String) (v : β)
    (h : l.lookup k = some v) : (k, v) ∈ l := by
  induction l with
  | nil => simp [List.lookup] at h
  | cons p t ih =>
    obtain ⟨k', v'⟩ := p
    by_cases hk : k = k'
    · subst hk
      simp [List.lookup] at h
      simp [h]
    · simp only [List.lookup] at h
      rw [show (k == k') = false by simpa [beq_iff_eq] using hk] at h
      exact List.mem_cons_of_mem _ (ih h)

lemma jsCallArgs_take4 {α : Type} (undef : α) (args : List α) (n : Nat) (hn : n ≤ 4) :
    jsCallArgs undef (args.take 4) n = jsCallArgs undef args n := by
  unfold jsCallArgs
  rw [List.take_take, Nat.min_eq_left hn]
  congr 1
  congr 1
  rw [List.length_take]
  omega

/-! ### Claim C1 -/

/-- Claim C1, counterexample: `createNamespace` is not idempotent.  Starting
from an empty registry, the first call with `"X"` returns the chainable class
allocated as instance 0, and a second call with the same name returns a
freshly allocated instance 1 — not the very same instance. -/
theorem claim1_counterexample :
    (createNamespace "X" ⟨0, [], []⟩).1 = 0 ∧
    (createNamespace "X" (createNamespace "X" ⟨0, [], []⟩).2).1 = 1 ∧
    (createNamespace "X" (createNamespace "X" ⟨0, [], []⟩).2).1
      ≠ (createNamespace "X" ⟨0, [], []⟩).1 :=
  ⟨rfl, rfl, by decide⟩

/-- Claim C1, amended: `createNamespace` never errors and is idempotent only
at the registry-key level, not at the instance level — every call, also with
an already-registered name, allocates a fresh `Namespace` instance, registers
it under the name (replacing the previous instance), and returns it. -/
theorem claim1_amended (name : String) (st : Registry) :
    (createNamespace name st).1 = st.nextId ∧
    (createNamespace name (createNamespace name st).2).1 = st.nextId + 1 ∧
    (createNamespace name (createNamespace name st).2).1 ≠ (createNamespace name st).1 ∧
    (createNamespace name (createNamespace name st).2).2.namespacesByName.lookup name
      = some (st.nextId + 1) := by
  refine ⟨rfl, rfl, by simp [createNamespace, getNewChainableClass], ?_⟩
  simp only [createNamespace, getNewChainableClass]
  exact putProp_lookup_self _ _ _

/-! ### Claim C2 -/

/-- Claim C2, counterexample: on `[10,20,30,40]` the unbracketed path
`"1..2"` does not match `PROPERTY_RANGE_REG` (which requires the
`[start..end]` bracket form), so `get(arr, "1..2")` returns `undefined`
rather than `[20,30]`, and `set(arr, "0..1", 99)` writes nothing. -/
theorem claim2_counterexample :
    deepGetProperty 20 arrTen "1..2" = some (.ok .undef) ∧
    some (Except.ok JVal.undef)
      ≠ (some (Except.ok (JVal.arr [.num 20, .num 30])) :
          Option (Except String JVal)) ∧
    deepSetProperty 20 arrTen "0..1" (.num 99) = some (.ok arrTen) := by
  refine ⟨rfl, ?_, rfl⟩
  intro h
  simp at h

/-- Claim C2, amended: the range syntax requires the bracket form.  On
`[10,20,30,40]`: `get(arr,"[1..2]")` is `[20,30]`; `get(arr,"[1..-1]")` is
`[20,30,40]` (`-1` meaning "to end" of the inclusive range);
`set(arr,"[0..1]",99)` writes 99 to indices 0 and 1; the unbracketed
`"1..2"`/`"0..1"` of the claim match no range, returning `undefined` and
writing nothing. -/
theorem claim2_amended :
    deepGetProperty 20 arrTen "[1..2]" = some (.ok (.arr [.num 20, .num 30])) ∧
    deepGetProperty 20 arrTen "[1..-1]"
      = some (.ok (.arr [.num 20, .num 30, .num 40])) ∧
    deepSetProperty 20 arrTen "[0..1]" (.num 99)
      = some (.ok (.arr [.num 99, .num 99, .num 30, .num 40])) ∧
    deepGetProperty 20 arrTen "1..2" = some (.ok .undef) ∧
    deepSetProperty 20 arrTen "0..1" (.num 99) = some (.ok arrTen) :=
  ⟨rfl, rfl, rfl, rfl, rfl⟩

/-! ### Claim C3 -/

/-- Claim C3, counterexample: path expressions are not memoized.  The embedded
source `get` performs one key decomposition on every call — including a repeat
call with the same key — whereas under the claimed capacity-1000 full-reset
cache (spec-modelled `deepGetPropertyMemoSpec`) the repeat call would be a
cache hit performing zero parses. -/
theorem claim3_counterexample :
    deepGetPropertyParses 20 pathObj "a.b" = some 1 ∧
    (deepGetPropertyMemoSpec 20 ⟨[], 0⟩ pathObj "a.b").2.2 = 1 ∧
    (deepGetPropertyMemoSpec 20
        (deepGetPropertyMemoSpec 20 ⟨[], 0⟩ pathObj "a.b").2.1 pathObj "a.b").2.2 = 0 ∧
    (1 : Nat) ≠ 0 :=
  ⟨rfl, rfl, rfl, by decide⟩

/-- Sugar: the hit equation of `memoizeFunction`. -/
lemma memoizeFunctionStep_hit {β : Type} (f : String → β) (st : MemoSt β) (key : String)
    (v : β) (hl : st.memo.lookup key = some v) :
    memoizeFunctionStep f st key = (v, st, false) := by
  unfold memoizeFunctionStep
  rw [hl]

/-- The miss equation of `memoizeFunction` below the limit. -/
lemma memoizeFunctionStep_miss {β : Type} (f : String → β) (st : MemoSt β) (key : String)
    (hl : st.memo.lookup key = none) (hc : st.counter ≠ INTERNAL_MEMOIZE_LIMIT) :
    memoizeFunctionStep f st key
      = (f key, ⟨(key, f key) :: st.memo, st.counter + 1⟩, true) := by
  unfold memoizeFunctionStep
  rw [hl]
  simp only [if_neg hc]

/-- The miss equation of `memoizeFunction` at the limit: the whole table is
discarded. -/
lemma memoizeFunctionStep_reset {β : Type} (f : String → β) (st : MemoSt β) (key : String)
    (hl : st.memo.lookup key = none) (hc : st.counter = INTERNAL_MEMOIZE_LIMIT) :
    memoizeFunctionStep f st key = (f key, ⟨[(key, f key)], 1⟩, true) := by
  unfold memoizeFunctionStep
  rw [hl]
  simp only [if_pos hc]

/-- Claim C3, amended: the bounded memoization cache (`memoizeFunction`,
capacity 1000, full-reset eviction) serves the format-string compiler, not
the path resolver, which re-parses on every call; from any reachable cache
state the memoized result is always `f key` — so results never depend on
whether the cache was hit — the cache never exceeds 1000 entries, overflow
resets the whole table rather than evicting single entries, and the result
of a (spec-modelled, memoized) `get` never depends on the cache state. -/
theorem claim3_amended {β : Type} (f : String → β) (st : MemoSt β) (key : String)
    (h : MemoInv f st) :
    (memoizeFunctionStep f st key).1 = f key ∧
    MemoInv f (memoizeFunctionStep f st key).2.1 ∧
    (memoizeFunctionStep f st key).2.1.memo.length ≤ INTERNAL_MEMOIZE_LIMIT ∧
    (st.counter = INTERNAL_MEMOIZE_LIMIT → st.memo.lookup key = none →
      (memoizeFunctionStep f st key).2.1.memo = [(key, f key)]) ∧
    (∀ (st2 : MemoSt (List (List String))) (fuel : Nat) (obj : JVal) (k2 : String),
      (deepGetPropertyMemoSpec fuel st2 obj k2).1 = deepGetProperty fuel obj k2) := by
  obtain ⟨hvals, hlen, hctr⟩ := h
  cases hl : st.memo.lookup key with
  | some v =>
    rw [memoizeFunctionStep_hit f st key v hl]
    exact ⟨hvals _ (lookup_mem_pairs _ _ _ hl), ⟨hvals, hlen, hctr⟩, le_trans hlen hctr,
      fun _ hnone => Option.noConfusion hnone,
      fun _ _ _ _ => rfl⟩
  | none =>
    by_cases hc : st.counter = INTERNAL_MEMOIZE_LIMIT
    · rw [memoizeFunctionStep_reset f st key hl hc]
      refine ⟨rfl, ⟨?_, ?_, ?_⟩, ?_, fun _ _ => rfl, fun _ _ _ _ => rfl⟩
      · intro p hp
        simp only [List.mem_singleton] at hp
        simp [hp]
      · simp
      · simp [INTERNAL_MEMOIZE_LIMIT]
      · simp [INTERNAL_MEMOIZE_LIMIT]
    · rw [memoizeFunctionStep_miss f st key hl hc]
      have hctr' : st.counter < INTERNAL_MEMOIZE_LIMIT := lt_of_le_of_ne hctr hc
      refine ⟨rfl, ⟨?_, ?_, ?_⟩, ?_, fun hcc _ => absurd hcc hc, fun _ _ _ _ => rfl⟩
      · intro p hp
        rcases List.mem_cons.mp hp with h1 | h2
        · simp [h1]
        · exact hvals _ h2
      · simp only [List.length_cons]
        omega
      · show st.counter + 1 ≤ INTERNAL_MEMOIZE_LIMIT
        omega
      · simp only [List.length_cons]
        omega

/-- Claim C3, witness for the amended theorem at a concrete reachable cache
state. -/
theorem claim3_witness :
    MemoInv (fun s => s.length) ⟨[("a", 1)], 1⟩ ∧
    (memoizeFunctionStep (fun s => s.length) ⟨[("a", 1)], 1⟩ "bc").1 = "bc".length :=
  ⟨⟨by decide, by decide, by decide⟩,
   (claim3_amended (fun s => s.length) ⟨[("a", 1)], 1⟩ "bc"
     ⟨by decide, by decide, by decide⟩).1⟩

/-! ### Claim C5 -/

/-- Claim C5: when a disambiguation method resolves the wrapped raw value's
namespace and the implementation fetched from that namespace is itself a
disambiguator, a `TypeError` is raised synchronously. -/
theorem claim5 (st : DispatchState) (methodName : String) (nullish : Bool)
    (tag rawStr dname : String)
    (hres : ((if nullish then none else st.namespacesByClassString.lookup tag).getD
        st.objectNs).protoTable.lookup methodName = some (.disambiguator dname)) :
    disambiguateMethodCall st methodName nullish tag rawStr
      = .typeError ("Cannot resolve namespace for " ++ rawStr) := by
  simp only [disambiguateMethodCall]
  rw [hres]

/-- Claim C5, witness: a concrete dispatch state whose `Number` namespace
holds a disambiguator under `display`. -/
theorem claim5_witness :
    disambiguateMethodCall dispatchFixture "display" false "[object Number]" "5"
      = .typeError ("Cannot resolve namespace for " ++ "5") :=
  claim5 dispatchFixture "display" false "[object Number]" "5" "display" rfl

/-! ### Claim C6 -/

/-- Claim C6: for a method defined with `collectsArguments` false (declared
arity at most 5, the range the `wrapInstanceMethodFixed` switch covers), the
synthesized instance variant passes the receiver as the implementation's
first argument and forwards exactly the first `min (arity-1) 4` call-site
arguments (padded with `undefined`); the call result never depends on the
5th or later call-site argument. -/
theorem claim6 {α : Type} (undef : α) (arity : Nat) (f : List α → α) (self : α)
    (args : List α) (h : arity ≤ 5) :
    wrapInstanceMethodFixedApply undef arity f self args
      = some (f (self :: jsCallArgs undef args (min (arity - 1) 4))) ∧
    wrapInstanceMethodFixedApply undef arity f self args
      = wrapInstanceMethodFixedApply undef arity f self (args.take 4) := by
  interval_cases arity <;>
    exact ⟨by simp [wrapInstanceMethodFixedApply, jsCallArgs],
           by simp [wrapInstanceMethodFixedApply, jsCallArgs_take4]⟩

/-- Claim C6, witness: arity 5 forwards the receiver plus the first four of
six call-site arguments. -/
theorem claim6_witness :
    wrapInstanceMethodFixedApply (0 : Int) 5 (fun l => (l.length : Int)) 7
        [1, 2, 3, 4, 5, 6]
      = some ((7 :: jsCallArgs (0 : Int) [1, 2, 3, 4, 5, 6] (min (5 - 1) 4)).length : Int) :=
  (claim6 (0 : Int) 5 (fun l => (l.length : Int)) 7 [1, 2, 3, 4, 5, 6] (by decide)).1

/-! ### Claim C7 -/

/-- Claim C7: `equal(0, -0)` is false — the `===` fast path returns
`a !== 0 || 1/a === 1/b`, distinguishing the zeroes — while `equal(NaN, NaN)`
is true through `objectIsEqual`'s canonical-string comparison
`"NaN" === "NaN"`. -/
theorem claim7 :
    isEqualR [] 4 (.prim (.num (.int 0))) (.prim (.num .negZero)) [] = some false ∧
    isEqualR [] 4 (.prim (.num .nan)) (.prim (.num .nan)) [] = some true :=
  ⟨rfl, rfl⟩

/-! ### Order lemmas for the key sort -/

lemma char_eq_of_toNat_eq {a b : Char} (h : a.toNat = b.toNat) : a = b :=
  Char.ext (UInt32.eq_of_toBitVec_eq (BitVec.eq_of_toNat_eq h))

lemma charsLe_total : ∀ a b : List Char, charsLe a b = true ∨ charsLe b a = true
  | [], _ => Or.inl rfl
  | _ :: _, [] => Or.inr rfl
  | x :: xs, y :: ys => by
    rcases Nat.lt_trichotomy x.toNat y.toNat with hlt | heq | hgt
    · left
      simp [charsLe, Nat.ne_of_lt hlt, hlt]
    · rcases charsLe_total xs ys with h1 | h1
      · left
        simp [charsLe, heq, h1]
      · right
        simp [charsLe, heq.symm, h1]
    · right
      simp [charsLe, Nat.ne_of_lt hgt, hgt]

lemma charsLe_antisymm : ∀ a b : List Char,
    charsLe a b = true → charsLe b a = true → a = b
  | [], [], _, _ => rfl
  | [], _ :: _, _, h2 => by simp [charsLe] at h2
  | _ :: _, [], h1, _ => by simp [charsLe] at h1
  | x :: xs, y :: ys, h1, h2 => by
    by_cases hxy : x.toNat = y.toNat
    · have hx : x = y := char_eq_of_toNat_eq hxy
      subst hx
      simp only [charsLe, if_pos rfl] at h1 h2
      rw [charsLe_antisymm xs ys h1 h2]
    · exfalso
      simp only [charsLe, if_neg hxy, decide_eq_true_eq] at h1
      simp only [charsLe, if_neg (Ne.symm hxy), decide_eq_true_eq] at h2
      omega

lemma charsLe_trans : ∀ a b c : List Char,
    charsLe a b = true → charsLe b c = true → charsLe a c = true
  | [], _, _, _, _ => rfl
  | _ :: _, [], _, h1, _ => by simp [charsLe] at h1
  | _ :: _, _ :: _, [], _, h2 => by simp [charsLe] at h2
  | x :: xs, y :: ys, z :: zs, h1, h2 => by
    by_cases hxy : x.toNat = y.toNat <;> by_cases hyz : y.toNat = z.toNat
    · simp only [charsLe, if_pos hxy] at h1
      simp only [charsLe, if_pos hyz] at h2
      simp only [charsLe, if_pos (hxy.trans hyz)]
      exact charsLe_trans xs ys zs h1 h2
    · simp only [charsLe, if_neg hyz, decide_eq_true_eq] at h2
      have hxz : x.toNat < z.toNat := hxy ▸ h2
      simp [charsLe, Nat.ne_of_lt hxz, hxz]
    · simp only [charsLe, if_neg hxy, decide_eq_true_eq] at h1
      have hxz : x.toNat < z.toNat := hyz ▸ h1
      simp [charsLe, Nat.ne_of_lt hxz, hxz]
    · simp only [charsLe, if_neg hxy, decide_eq_true_eq] at h1
      simp only [charsLe, if_neg hyz, decide_eq_true_eq] at h2
      have hxz : x.toNat < z.toNat := Nat.lt_trans h1 h2
      simp [charsLe, Nat.ne_of_lt hxz, hxz]

instance : IsTotal String (fun s t => sLe s t = true) :=
  ⟨fun s t => charsLe_total s.toList t.toList⟩

instance : IsTrans String (fun s t => sLe s t = true) :=
  ⟨fun s t u => charsLe_trans s.toList t.toList u.toList⟩

instance : IsAntisymm String (fun s t => sLe s t = true) :=
  ⟨fun s t h1 h2 => String.ext (charsLe_antisymm s.toList t.toList h1 h2)⟩

/-- Sorting is invariant under permutation of the input (the sorted output
is the unique `sLe`-sorted list with the input's elements). -/
lemma sortStrings_perm_eq {l1 l2 : List String} (hp : l1.Perm l2) :
    sortStrings l1 = sortStrings l2 :=
  List.eq_of_perm_of_sorted
    (((List.perm_insertionSort _ l1).trans hp).trans
      (List.perm_insertionSort _ l2).symm)
    (List.sorted_insertionSort _ l1) (List.sorted_insertionSort _ l2)

/-! ### Lookup under permutation -/

lemma lookup_eq_of_perm {β : Type} {fds fds' : List (String × β)}
    (hp : fds.Perm fds') (hnd : (fds.map Prod.fst).Nodup) (k : String) :
    fds.lookup k = fds'.lookup k := by
  induction hp with
  | nil => rfl
  | cons x _ ih =>
    have htl := hnd
    simp only [List.map_cons, List.nodup_cons] at htl
    simp only [List.lookup]
    cases hk : k == x.1
    · exact ih htl.2
    · rfl
  | swap x y l =>
    have h' := hnd
    simp only [List.map_cons, List.nodup_cons, List.mem_cons] at h'
    have hxy : y.1 ≠ x.1 := fun he => h'.1 (Or.inl he)
    simp only [List.lookup]
    cases hky : k == y.1 <;> cases hkx : k == x.1 <;> try rfl
    exact absurd ((eq_of_beq hky).symm.trans (eq_of_beq hkx)) hxy
  | trans h1 _ ih1 ih2 =>
    exact (ih1 hnd).trans (ih2 (((h1.map Prod.fst).nodup_iff).mp hnd))

/-- The sorted-key iteration of `serializeDeep` is invariant under the
insertion order of a duplicate-free field list. -/
lemma serializeDeepKeys_perm {fds fds' : List (String × RVal)}
    (hp : fds.Perm fds') (hnd : (fds.map Prod.fst).Nodup) :
    serializeDeepKeys fds = serializeDeepKeys fds' := by
  unfold serializeDeepKeys
  rw [sortStrings_perm_eq (hp.map Prod.fst)]
  exact List.filterMap_congr (fun k _ => by rw [lookup_eq_of_perm hp hnd k])

/-! ### Counting lemmas for the termination measures -/

lemma countP_succ_le {α : Type} {p q : α → Bool} :
    ∀ (l : List α), (∀ a ∈ l, q a = true → p a = true) → ∀ x ∈ l,
      p x = true → q x = false → l.countP q + 1 ≤ l.countP p
  | [], _, x, hx, _, _ => absurd hx (List.not_mem_nil x)
  | y :: t, himp, x, hx, hpx, hqx => by
    have himp' : ∀ a ∈ t, q a = true → p a = true :=
      fun a ha hq => himp a (List.mem_cons_of_mem _ ha) hq
    rw [List.countP_cons, List.countP_cons]
    rcases List.mem_cons.mp hx with rfl | hxt
    · have hmono : t.countP q ≤ t.countP p := List.countP_mono_left himp'
      rw [hpx, hqx]
      simp only [if_true]
      simp
      omega
    · have hrec := countP_succ_le t himp' x hxt hpx hqx
      have hy : (if q y = true then 1 else 0) ≤ (if p y = true then 1 else 0) := by
        by_cases hqy : q y = true
        · simp [hqy, himp y (List.mem_cons_self y t) hqy]
        · simp [hqy]
      omega

lemma getD_node_lt {h : Heap} {r : Nat} {nd : HNode} (hnd : h.getD r .host = nd)
    (hne : nd ≠ .host) : r < h.length := by
  by_contra hge
  rw [List.getD_eq_default _ _ (Nat.le_of_not_lt hge)] at hnd
  exact hne hnd.symm

lemma validObjArr_lt {h : Heap} {r : Nat} (hv : validObjArr h (.ref r) = true) :
    r < h.length := by
  by_contra hge
  simp only [validObjArr] at hv
  rw [List.getD_eq_default _ _ (Nat.le_of_not_lt hge)] at hv
  simp at hv

lemma nodeSize_getD_le (h : Heap) : ∀ r, r < h.length →
    nodeSize (h.getD r .host) ≤ maxFields h := by
  induction h with
  | nil => intro r hr; simp at hr
  | cons n t ih =>
    intro r hr
    cases r with
    | zero =>
      simp only [List.getD_cons_zero, maxFields, List.foldr_cons]
      exact le_max_left _ _
    | succ r' =>
      simp only [List.getD_cons_succ]
      refine le_trans (ih r' (by simpa using hr)) ?_
      simp only [maxFields, List.foldr_cons]
      exact le_max_right _ _

lemma serializeDeepKeys_length_le (fields : List (String × RVal)) :
    (serializeDeepKeys fields).length ≤ fields.length := by
  unfold serializeDeepKeys sortStrings
  refine le_trans (List.length_filterMap_le _ _) ?_
  rw [List.length_insertionSort, List.length_map]

lemma stackRoom_pos (h : Heap) (stack : List RVal) : 1 ≤ stackRoom h stack := by
  unfold stackRoom
  omega

/-- The central step of the termination argument: descending into a valid
node that did not trigger the cycle sentinel strictly shrinks the room. -/
lemma stackRoom_push (h : Heap) (stack : List RVal) (w : RVal)
    (hw : validObjArr h w = true)
    (hcyc : (decide (stack.length > 1) && stack.any (fun s => strictEqR s w)) = false) :
    stackRoom h (stack ++ [w]) + 1 ≤ stackRoom h stack := by
  have hmono : unvisitedCount h (stack ++ [w]) ≤ unvisitedCount h stack := by
    apply List.countP_mono_left
    intro i _ hq
    simp only [List.any_append, Bool.and_eq_true, Bool.not_eq_true',
      Bool.or_eq_false_iff, List.any_cons, List.any_nil] at hq ⊢
    exact ⟨hq.1, hq.2.1⟩
  unfold stackRoom
  by_cases hlen : stack.length ≤ 1
  · have h1 : min stack.length 2 = stack.length := Nat.min_eq_left (by omega)
    have h2 : min (stack ++ [w]).length 2 = stack.length + 1 := by
      rw [List.length_append]
      exact Nat.min_eq_left (by simpa using by omega)
    rw [h1, h2]
    omega
  · have hdec : decide (stack.length > 1) = true := by
      simp only [decide_eq_true_eq]
      omega
    rw [hdec, Bool.true_and] at hcyc
    cases w with
    | prim p => simp [validObjArr] at hw
    | ref r0 =>
      have hr0 : r0 < h.length := validObjArr_lt hw
      have hkey : unvisitedCount h (stack ++ [.ref r0]) + 1 ≤ unvisitedCount h stack := by
        apply countP_succ_le
        · intro i _ hq
          simp only [List.any_append, Bool.and_eq_true, Bool.not_eq_true',
            Bool.or_eq_false_iff, List.any_cons, List.any_nil] at hq ⊢
          exact ⟨hq.1, hq.2.1⟩
        · exact List.mem_range.mpr hr0
        · rw [Bool.and_eq_true, hw, hcyc]
          simp
        · simp [List.any_append, strictEqR]
      have h1 : min stack.length 2 = 2 := Nat.min_eq_right (by omega)
      have h2 : min (stack ++ [RVal.ref r0]).length 2 = 2 := by
        rw [List.length_append]
        exact Nat.min_eq_right (by simp; omega)
      rw [h1, h2]
      omega

/-! ### Adequate fuel for the cycle-guarded join and the serializer -/

lemma serializeInternal_nonrec (h : Heap) (fuel : Nat) (v : RVal)
    (refs : List Nat) (stack : List RVal) (hv : validObjArr h v = false) :
    (serializeInternal h fuel v refs stack).isSome := by
  cases v with
  | prim p =>
    cases p with
    | num n => cases n <;> simp [serializeInternal]
    | undef => simp [serializeInternal]
    | pnull => simp [serializeInternal]
    | pstr s => simp [serializeInternal]
    | pbool b => simp [serializeInternal]
  | ref r =>
    cases hnd : h.getD r .host with
    | host =>
      unfold serializeInternal
      simp only []
      rw [hnd]
      simp
    | obj fs =>
      simp only [validObjArr] at hv
      rw [hnd] at hv
      simp at hv
    | arrn es =>
      simp only [validObjArr] at hv
      rw [hnd] at hv
      simp at hv

lemma joinRun_isSome (h : Heap) : ∀ fuel visited es,
    es.length + (maxFields h + 2) * unvisitedArrCount h visited ≤ fuel →
    (joinRun h fuel visited es).isSome := by
  intro fuel
  induction fuel with
  | zero =>
    intro visited es hle
    have h0 : es.length = 0 := by omega
    rw [List.length_eq_zero.mp h0]
    simp [joinRun]
  | succ f ih =>
    intro visited es hle
    cases es with
    | nil => simp [joinRun]
    | cons v rest =>
      have hrest : (if rest.isEmpty then some ""
          else (joinRun h f visited rest).map (fun t => "," ++ t)).isSome := by
        cases rest with
        | nil => simp
        | cons v2 r2 =>
          have hj : (joinRun h f visited (v2 :: r2)).isSome := by
            apply ih
            simp only [List.length_cons] at hle ⊢
            omega
          obtain ⟨t, ht⟩ := Option.isSome_iff_exists.mp hj
          simp [ht]
      obtain ⟨t, ht⟩ := Option.isSome_iff_exists.mp hrest
      simp only [joinRun]
      rw [ht]
      cases v with
      | prim p => cases p <;> simp
      | ref r =>
        simp only []
        cases hnd : h.getD r .host with
        | obj fs => simp
        | host => simp
        | arrn es2 =>
          simp only []
          by_cases hvis : visited.contains r = true
          · rw [if_pos hvis]
            simp
          · rw [if_neg hvis]
            have hr : r < h.length := getD_node_lt hnd (by simp)
            have hU : unvisitedArrCount h (r :: visited) + 1
                ≤ unvisitedArrCount h visited := by
              apply countP_succ_le
              · intro i _ hq
                simp only [Bool.and_eq_true, Bool.not_eq_true', List.contains_cons,
                  Bool.or_eq_false_iff] at hq ⊢
                exact ⟨hq.1, hq.2.2⟩
              · exact List.mem_range.mpr hr
              · rw [Bool.and_eq_true, hnd]
                have hvm : r ∉ visited := by simpa using hvis
                simp [hvm]
              · simp [List.contains_cons]
            have hlen2 : es2.length ≤ maxFields h := by
              have := nodeSize_getD_le h r hr
              rw [hnd] at this
              simpa [nodeSize] using this
            have hj2 : (joinRun h f (r :: visited) es2).isSome := by
              apply ih
              have hmul := Nat.mul_le_mul_left (maxFields h + 2) hU
              rw [Nat.mul_succ] at hmul
              simp only [List.length_cons] at hle
              omega
            obtain ⟨s, hs2⟩ := Option.isSome_iff_exists.mp hj2
            rw [hs2]
            simp

lemma jsToStringR_isSome (h : Heap) (v : RVal) : (jsToStringR h v).isSome := by
  cases v with
  | prim p => simp [jsToStringR]
  | ref r =>
    cases hnd : h.getD r .host with
    | obj fs =>
      unfold jsToStringR
      simp only []
      rw [hnd]
      simp
    | host =>
      unfold jsToStringR
      simp only []
      rw [hnd]
      simp
    | arrn es =>
      unfold jsToStringR
      simp only []
      rw [hnd]
      simp only []
      apply joinRun_isSome
      have hr : r < h.length := getD_node_lt hnd (by simp)
      have hlen : es.length ≤ maxFields h := by
        have := nodeSize_getD_le h r hr
        rw [hnd] at this
        simpa [nodeSize] using this
      have hU : unvisitedArrCount h [r] ≤ h.length :=
        le_trans (List.countP_le_length _) (by simp)
      have hmul := Nat.mul_le_mul_left (maxFields h + 2) hU
      unfold joinFuel
      have hexp : (maxFields h + 2) * (h.length + 2)
          = (maxFields h + 2) * h.length + (maxFields h + 2) * 2 := by
        rw [Nat.mul_add]
      omega

lemma unvisitedCount_le (h : Heap) (stack : List RVal) :
    unvisitedCount h stack ≤ h.length := by
  unfold unvisitedCount
  exact le_trans (List.countP_le_length _) (by simp)

lemma stackRoom_le (h : Heap) (stack : List RVal) :
    stackRoom h stack ≤ h.length + 3 := by
  have := unvisitedCount_le h stack
  unfold stackRoom
  omega

lemma arrIndexFields_length (es : List RVal) :
    (arrIndexFields es).length = es.length := by
  simp [arrIndexFields]

/-- The serializer and its field walk are total once the fuel dominates the
decreasing measure: the adequacy induction for `serializeInternal`. -/
lemma szAdequateAux : ∀ fuel : Nat,
    (∀ (h : Heap) (v : RVal) (refs : List Nat) (stack : List RVal),
      (maxFields h + 2) * stackRoom h stack ≤ fuel →
      (serializeInternal h fuel v refs stack).isSome) ∧
    (∀ (h : Heap) (fields : List (String × RVal)) (refs : List Nat)
      (stack : List RVal),
      fields.length + (maxFields h + 2) * (stackRoom h stack - 1) + 1 ≤ fuel →
      (szFields h fuel fields refs stack).isSome) := by
  intro fuel
  induction fuel with
  | zero =>
    constructor
    · intro h v refs stack hle
      have h1 := Nat.mul_le_mul (show 1 ≤ maxFields h + 2 by omega)
        (stackRoom_pos h stack)
      omega
    · intro h fields refs stack hle
      omega
  | succ f ih =>
    constructor
    · intro h v refs stack hle
      by_cases hv : validObjArr h v = true
      · cases v with
        | prim p => simp [validObjArr] at hv
        | ref r =>
          have hS := stackRoom_pos h stack
          cases hnd : h.getD r .host with
          | host =>
            unfold serializeInternal
            simp only []
            rw [hnd]
            simp
          | obj fields =>
            have hr : r < h.length := getD_node_lt hnd (by simp)
            have hflen : fields.length ≤ maxFields h := by
              have := nodeSize_getD_le h r hr
              rw [hnd] at this
              simpa [nodeSize] using this
            have hkeys := le_trans (serializeDeepKeys_length_le fields) hflen
            have hsz : (szFields h f (serializeDeepKeys fields) refs stack).isSome := by
              apply (ih.2) h _ refs stack
              have hexp : (maxFields h + 2) * stackRoom h stack
                  = (maxFields h + 2) * (stackRoom h stack - 1) + (maxFields h + 2) := by
                conv_lhs => rw [show stackRoom h stack = (stackRoom h stack - 1) + 1 by omega]
                rw [Nat.mul_succ]
              omega
            obtain ⟨d, hd⟩ := Option.isSome_iff_exists.mp hsz
            obtain ⟨ts, hts⟩ := Option.isSome_iff_exists.mp (jsToStringR_isSome h (.ref r))
            unfold serializeInternal
            simp only []
            rw [hnd]
            simp only []
            rw [hd]
            simp only []
            rw [hts]
            simp
          | arrn es =>
            have hr : r < h.length := getD_node_lt hnd (by simp)
            have hflen : (arrIndexFields es).length ≤ maxFields h := by
              rw [arrIndexFields_length]
              have := nodeSize_getD_le h r hr
              rw [hnd] at this
              simpa [nodeSize] using this
            have hkeys := le_trans (serializeDeepKeys_length_le (arrIndexFields es)) hflen
            have hsz : (szFields h f (serializeDeepKeys (arrIndexFields es)) refs stack).isSome := by
              apply (ih.2) h _ refs stack
              have hexp : (maxFields h + 2) * stackRoom h stack
                  = (maxFields h + 2) * (stackRoom h stack - 1) + (maxFields h + 2) := by
                conv_lhs => rw [show stackRoom h stack = (stackRoom h stack - 1) + 1 by omega]
                rw [Nat.mul_succ]
              omega
            obtain ⟨d, hd⟩ := Option.isSome_iff_exists.mp hsz
            obtain ⟨ts, hts⟩ := Option.isSome_iff_exists.mp (jsToStringR_isSome h (.ref r))
            unfold serializeInternal
            simp only []
            rw [hnd]
            simp only []
            rw [hd]
            simp only []
            rw [hts]
            simp
      · exact serializeInternal_nonrec h (f + 1) v refs stack (by simpa using hv)
    · intro h fields refs stack hle
      cases fields with
      | nil => simp [szFields]
      | cons kw rest =>
        obtain ⟨k, w⟩ := kw
        simp only [List.length_cons] at hle
        by_cases hcyc : (decide (stack.length > 1)
            && stack.any (fun s => strictEqR s w)) = true
        · have hsz : (szFields h f rest refs stack).isSome :=
            (ih.2) h rest refs stack (by omega)
          obtain ⟨d, hd⟩ := Option.isSome_iff_exists.mp hsz
          simp [szFields, hcyc, hd]
        · have hcyc' : (decide (stack.length > 1)
              && stack.any (fun s => strictEqR s w)) = false := by
            simpa using hcyc
          have hser : (serializeInternal h f w refs (stack ++ [w])).isSome := by
            by_cases hv : validObjArr h w = true
            · apply (ih.1) h w refs (stack ++ [w])
              have hpush := stackRoom_push h stack w hv hcyc'
              have hmul := Nat.mul_le_mul_left (maxFields h + 2)
                (show stackRoom h (stack ++ [w]) ≤ stackRoom h stack - 1 by omega)
              omega
            · exact serializeInternal_nonrec h f w refs (stack ++ [w]) (by simpa using hv)
          obtain ⟨t, ht⟩ := Option.isSome_iff_exists.mp hser
          have hsz : (szFields h f rest t.2 stack).isSome :=
            (ih.2) h rest t.2 stack (by omega)
          obtain ⟨d, hd⟩ := Option.isSome_iff_exists.mp hsz
          simp only [szFields, hcyc', Bool.false_eq_true, if_false, ht, hd,
            Option.isSome_some]

/-- `serializeInternal` always succeeds with the computed fuel bound: the
serializer terminates on every value of every heap, cyclic or not. -/
lemma serialize_total (h : Heap) (v : RVal) (refs : List Nat) :
    (serializeInternal h (boundFuel h) v refs []).isSome := by
  apply (szAdequateAux (boundFuel h)).1
  have h1 := stackRoom_le h []
  have hmul := Nat.mul_le_mul (show maxFields h + 2 ≤ maxFields h + 4 by omega) h1
  unfold boundFuel
  omega

lemma finalToStringEq_isSome (h : Heap) (a b : RVal) :
    (finalToStringEq h a b).isSome := by
  unfold finalToStringEq
  obtain ⟨sa, hsa⟩ := Option.isSome_iff_exists.mp (jsToStringR_isSome h a)
  obtain ⟨sb, hsb⟩ := Option.isSome_iff_exists.mp (jsToStringR_isSome h b)
  rw [hsa, hsb]
  simp

lemma aFieldsOf_none {h : Heap} {a : RVal} (hv : validObjArr h a = false) :
    aFieldsOf h a = none := by
  cases a with
  | prim p => simp [aFieldsOf]
  | ref r =>
    cases hnd : h.getD r .host with
    | host =>
      unfold aFieldsOf
      simp only []
      rw [hnd]
    | obj fs =>
      simp only [validObjArr] at hv
      rw [hnd] at hv
      simp at hv
    | arrn es =>
      simp only [validObjArr] at hv
      rw [hnd] at hv
      simp at hv

lemma aFieldsOf_length_le {h : Heap} {a : RVal} {fs : List (String × RVal)}
    (haf : aFieldsOf h a = some fs) : fs.length ≤ maxFields h := by
  cases a with
  | prim p => simp [aFieldsOf] at haf
  | ref r =>
    cases hnd : h.getD r .host with
    | host =>
      unfold aFieldsOf at haf
      simp only [] at haf
      rw [hnd] at haf
      simp at haf
    | obj fs0 =>
      unfold aFieldsOf at haf
      simp only [] at haf
      rw [hnd] at haf
      simp only [Option.some.injEq] at haf
      subst haf
      have hr : r < h.length := getD_node_lt hnd (by simp)
      have := nodeSize_getD_le h r hr
      rw [hnd] at this
      simpa [nodeSize] using this
    | arrn es =>
      unfold aFieldsOf at haf
      simp only [] at haf
      rw [hnd] at haf
      simp only [Option.some.injEq] at haf
      subst haf
      have hr : r < h.length := getD_node_lt hnd (by simp)
      have := nodeSize_getD_le h r hr
      rw [hnd] at this
      rw [arrIndexFields_length]
      simpa [nodeSize] using this

lemma objectIsEqual_nonrec (h : Heap) (fuel : Nat) (a b : RVal)
    (stack : List RVal) (haf : aFieldsOf h a = none) :
    (objectIsEqualR h fuel a b stack).isSome := by
  unfold objectIsEqualR
  by_cases ht : (typeofR a != typeofR b) = true
  · simp [ht]
  · have ht' : (typeofR a != typeofR b) = false := by simpa using ht
    rw [ht', if_neg (by simp)]
    rw [haf]
    exact finalToStringEq_isSome h a b

lemma isEqual_nonrec (h : Heap) (fuel : Nat) (a b : RVal) (stack : List RVal)
    (hv : validObjArr h a = false) (hf : 1 ≤ fuel) :
    (isEqualR h fuel a b stack).isSome := by
  unfold isEqualR
  by_cases h1 : strictEqR a b = true
  · simp [h1]
  · have h1' : strictEqR a b = false := by simpa using h1
    rw [h1', if_neg (by simp)]
    by_cases h2 : classToStringR h a ≠ classToStringR h b
    · rw [if_pos h2]
      simp
    · rw [if_neg h2]
      by_cases h3 : (isSerializableR h a && isSerializableR h b) = true
      · rw [h3, if_pos rfl]
        cases fuel with
        | zero => omega
        | succ f =>
          simp only []
          exact objectIsEqual_nonrec h f a b stack (aFieldsOf_none hv)
      · have h3' : (isSerializableR h a && isSerializableR h b) = false := by
          simpa using h3
        rw [h3', if_neg (by simp)]
        simp

/-- The adequacy induction for the equality traversal: `isEqualR`,
`objectIsEqualR` and `eqFields` are total once the fuel dominates the
decreasing measure. -/
lemma eqAdequateAux : ∀ fuel : Nat,
    (∀ (h : Heap) (a b : RVal) (stack : List RVal),
      (maxFields h + 4) * stackRoom h stack ≤ fuel →
      (isEqualR h fuel a b stack).isSome) ∧
    (∀ (h : Heap) (a b : RVal) (stack : List RVal),
      (maxFields h + 4) * (stackRoom h stack - 1) + maxFields h + 3 ≤ fuel →
      (objectIsEqualR h fuel a b stack).isSome) ∧
    (∀ (h : Heap) (fields : List (String × RVal)) (b : RVal)
      (stack : List RVal),
      fields.length + (maxFields h + 4) * (stackRoom h stack - 1) + 2 ≤ fuel →
      (eqFields h fuel fields b stack).isSome) := by
  intro fuel
  induction fuel with
  | zero =>
    refine ⟨?_, ?_, ?_⟩
    · intro h a b stack hle
      have h1 := Nat.mul_le_mul (show 1 ≤ maxFields h + 4 by omega)
        (stackRoom_pos h stack)
      omega
    · intro h a b stack hle
      omega
    · intro h fields b stack hle
      omega
  | succ f ih =>
    refine ⟨?_, ?_, ?_⟩
    · intro h a b stack hle
      have hS := stackRoom_pos h stack
      unfold isEqualR
      by_cases h1 : strictEqR a b = true
      · simp [h1]
      · have h1' : strictEqR a b = false := by simpa using h1
        rw [h1', if_neg (by simp)]
        by_cases h2 : classToStringR h a ≠ classToStringR h b
        · rw [if_pos h2]
          simp
        · rw [if_neg h2]
          by_cases h3 : (isSerializableR h a && isSerializableR h b) = true
          · rw [h3, if_pos rfl]
            simp only []
            apply ih.2.1 h a b stack
            have hexp : (maxFields h + 4) * stackRoom h stack
                = (maxFields h + 4) * (stackRoom h stack - 1) + (maxFields h + 4) := by
              conv_lhs => rw [show stackRoom h stack = (stackRoom h stack - 1) + 1 by omega]
              rw [Nat.mul_succ]
            omega
          · have h3' : (isSerializableR h a && isSerializableR h b) = false := by
              simpa using h3
            rw [h3', if_neg (by simp)]
            simp
    · intro h a b stack hle
      unfold objectIsEqualR
      by_cases ht : (typeofR a != typeofR b) = true
      · simp [ht]
      · have ht' : (typeofR a != typeofR b) = false := by simpa using ht
        rw [ht', if_neg (by simp)]
        cases haf : aFieldsOf h a with
        | none => exact finalToStringEq_isSome h a b
        | some fs =>
          have hflen := aFieldsOf_length_le haf
          by_cases hlp : (!strictEqR (lengthPropV h a) (lengthPropV h b)) = true
          · simp [hlp]
          · have hlp' : (!strictEqR (lengthPropV h a) (lengthPropV h b)) = false := by
              simpa using hlp
            simp only [hlp', Bool.false_eq_true, if_false]
            have heq : (eqFields h f fs b stack).isSome :=
              ih.2.2 h fs b stack (by omega)
            obtain ⟨pe, hpe⟩ := Option.isSome_iff_exists.mp heq
            rw [hpe]
            simp only []
            by_cases hfin : (!pe || decide (fs.length ≠ bKeysCount h b)) = true
            · have hp : pe = false ∨ ¬fs.length = bKeysCount h b := by
                simpa using hfin
              simp [hp]
            · have hfin' : (!pe || decide (fs.length ≠ bKeysCount h b)) = false := by
                simpa using hfin
              simp only [hfin', Bool.false_eq_true, if_false]
              exact finalToStringEq_isSome h a b
    · intro h fields b stack hle
      cases fields with
      | nil => simp [eqFields]
      | cons kw rest =>
        obtain ⟨k, w⟩ := kw
        simp only [List.length_cons] at hle
        unfold eqFields
        simp only []
        by_cases hcyc : (decide (stack.length > 1)
            && stack.any (fun s => strictEqR s w)) = true
        · rw [hcyc, if_pos rfl]
          exact ih.2.2 h rest b stack (by omega)
        · have hcyc' : (decide (stack.length > 1)
              && stack.any (fun s => strictEqR s w)) = false := by
            simpa using hcyc
          rw [hcyc', if_neg (by simp)]
          by_cases hnp : (!hasPropAnyR h b k) = true
          · rw [hnp, if_pos rfl]
            have hrest : (eqFields h f rest b stack).isSome :=
              ih.2.2 h rest b stack (by omega)
            obtain ⟨pr, hpr⟩ := Option.isSome_iff_exists.mp hrest
            rw [hpr]
            simp
          · have hnp' : (!hasPropAnyR h b k) = false := by simpa using hnp
            rw [hnp', if_neg (by simp)]
            have hser : (isEqualR h f w (getPropR h b k) (stack ++ [w])).isSome := by
              by_cases hv : validObjArr h w = true
              · apply ih.1 h w (getPropR h b k) (stack ++ [w])
                have hpush := stackRoom_push h stack w hv hcyc'
                have hmul := Nat.mul_le_mul_left (maxFields h + 4)
                  (show stackRoom h (stack ++ [w]) ≤ stackRoom h stack - 1 by omega)
                omega
              · exact isEqual_nonrec h f w (getPropR h b k) (stack ++ [w])
                  (by simpa using hv) (by omega)
            obtain ⟨ew, hew⟩ := Option.isSome_iff_exists.mp hser
            rw [hew]
            simp only []
            have hrest : (eqFields h f rest b stack).isSome :=
              ih.2.2 h rest b stack (by omega)
            obtain ⟨pr, hpr⟩ := Option.isSome_iff_exists.mp hrest
            rw [hpr]
            simp

/-- `isEqualR` always succeeds with the computed fuel bound: the equality
traversal terminates on every pair of values of every heap. -/
lemma isEqual_total (h : Heap) (a b : RVal) :
    (isEqualR h (boundFuel h) a b []).isSome := by
  apply (eqAdequateAux (boundFuel h)).1
  have h1 := stackRoom_le h []
  have hmul := Nat.mul_le_mul_left (maxFields h + 4) h1
  unfold boundFuel
  omega

/-! ### Claim C9 -/

/-- Claim C9: both `equal` and `serialize` terminate on every input,
self-referential ones included.  The embedded traversals (whose recursion is
fuel-instrumented because the source recursion is unbounded) always produce a
result within the computable fuel bound `boundFuel` — the stack discipline
(push before descending, pop after, sentinel for a child already on the
stack) bounds the recursion depth — and on concrete cyclic heaps the
already-on-stack child contributes the fixed `CYC` sentinel (serialization)
or is skipped (equality) instead of being recursed into. -/
theorem claim9 :
    (∀ (h : Heap) (v : RVal) (refs : List Nat),
      (serializeInternal h (boundFuel h) v refs []).isSome) ∧
    (∀ (h : Heap) (a b : RVal), (isEqualR h (boundFuel h) a b []).isSome) ∧
    serializeInternal cycHeap (boundFuel cycHeap) (.ref 0) [] []
      = some ("object[object Object]aobject[object Object]aobject[object Object]CYC[object Object][object Object][object Object]", []) ∧
    isEqualR cycPairHeap (boundFuel cycPairHeap) (.ref 0) (.ref 1) [] = some true :=
  ⟨fun h v refs => serialize_total h v refs,
   fun h a b => isEqual_total h a b, rfl, rfl⟩

/-! ### The reference table of `serialize` (claim C8) -/

lemma refIndexOf_some : ∀ (l : List Nat) (r i : Nat), refIndexOf l r = some i →
    i < l.length ∧ l.getD i 0 = r := by
  intro l
  induction l with
  | nil =>
    intro r i h
    simp [refIndexOf] at h
  | cons x t ih =>
    intro r i h
    unfold refIndexOf at h
    by_cases hx : x = r
    · rw [if_pos hx] at h
      have h0 : (0 : Nat) = i := by injection h
      subst h0
      exact ⟨by simp, by simpa [List.getD_cons_zero] using hx⟩
    · rw [if_neg hx] at h
      cases hrec : refIndexOf t r with
      | none =>
        rw [hrec] at h
        simp at h
      | some j =>
        rw [hrec] at h
        have hj : j + 1 = i := by
          simpa using h
        subst hj
        obtain ⟨h1, h2⟩ := ih r j hrec
        exact ⟨by simp only [List.length_cons]; omega,
          by simpa [List.getD_cons_succ] using h2⟩

lemma getD_append_self : ∀ (l : List Nat) (r : Nat), (l ++ [r]).getD l.length 0 = r
  | [], r => rfl
  | x :: t, r => by
    simp only [List.cons_append, List.length_cons, List.getD_cons_succ]
    exact getD_append_self t r

/-- The index a host object receives points back at it in the updated
reference table. -/
lemma hostRefToken_spec (refs : List Nat) (r : Nat) :
    (hostRefToken refs r).1 < (hostRefToken refs r).2.length ∧
    (hostRefToken refs r).2.getD (hostRefToken refs r).1 0 = r := by
  unfold hostRefToken
  cases hri : refIndexOf refs r with
  | some i =>
    exact refIndexOf_some refs r i hri
  | none =>
    exact ⟨by simp, getD_append_self refs r⟩

/-- Two distinct host objects seen in sequence receive distinct first-seen
indices. -/
lemma hostRefToken_pair_ne (refs : List Nat) (r1 r2 : Nat) (hne : r1 ≠ r2) :
    (hostRefToken (hostRefToken refs r1).2 r2).1 ≠ (hostRefToken refs r1).1 := by
  obtain ⟨h1lt, h1get⟩ := hostRefToken_spec refs r1
  set i1 := (hostRefToken refs r1).1 with hi1
  set refs1 := (hostRefToken refs r1).2 with hr1
  cases hri : refIndexOf refs1 r2 with
  | some i2 =>
    obtain ⟨h2lt, h2get⟩ := refIndexOf_some _ r2 i2 hri
    intro heq
    have heq' : i2 = i1 := by
      have hu : (hostRefToken refs1 r2).1 = i2 := by
        unfold hostRefToken
        rw [hri]
      rw [hu] at heq
      exact heq
    rw [heq'] at h2get
    exact hne (h1get.symm.trans h2get)
  | none =>
    intro heq
    have hu : (hostRefToken refs1 r2).1 = refs1.length := by
      unfold hostRefToken
      rw [hri]
    rw [hu] at heq
    omega

/-- Serialization only sees an object node's fields through the sorted-key
projection, so two nodes whose field lists are permutations of each other
(no duplicate keys) serialize to the very same token and reference table. -/
lemma serialize_obj_perm (h : Heap) (fuel : Nat) (r1 r2 : Nat)
    (fds fds' : List (String × RVal)) (refs : List Nat) (stack : List RVal)
    (h1 : h.getD r1 .host = .obj fds) (h2 : h.getD r2 .host = .obj fds')
    (hp : fds.Perm fds') (hnd : (fds.map Prod.fst).Nodup) :
    serializeInternal h fuel (.ref r1) refs stack
      = serializeInternal h fuel (.ref r2) refs stack := by
  have hk := serializeDeepKeys_perm hp hnd
  have hts : jsToStringR h (.ref r1) = jsToStringR h (.ref r2) := by
    unfold jsToStringR
    simp only []
    rw [h1, h2]
  cases fuel with
  | zero =>
    unfold serializeInternal
    simp only []
    rw [h1, h2]
  | succ f =>
    unfold serializeInternal
    simp only []
    rw [h1, h2]
    simp only []
    rw [hk, hts]

/-! ### Claim C8 -/

/-- Claim C8: `serialize` uses sorted rather than insertion key order — two
object nodes whose (duplicate-free) field lists are permutations of each
other always yield the very same token and reference table — and within one
call two distinct host objects receive distinct first-seen-index tokens; on
the concrete heap holding two host objects, the tokens are the indices `0`
and `1`. -/
theorem claim8 :
    (∀ (h : Heap) (fuel : Nat) (r1 r2 : Nat) (fds fds' : List (String × RVal))
      (refs : List Nat) (stack : List RVal),
      h.getD r1 .host = .obj fds → h.getD r2 .host = .obj fds' →
      fds.Perm fds' → (fds.map Prod.fst).Nodup →
      serializeInternal h fuel (.ref r1) refs stack
        = serializeInternal h fuel (.ref r2) refs stack) ∧
    (∀ (refs : List Nat) (r1 r2 : Nat), r1 ≠ r2 →
      (hostRefToken (hostRefToken refs r1).2 r2).1 ≠ (hostRefToken refs r1).1) ∧
    serializeInternal hostPairHeap (boundFuel hostPairHeap) (.ref 0) [] []
      = some ("object[object Array]0011[object Host],[object Host]", [1, 2]) :=
  ⟨fun h fuel r1 r2 fds fds' refs stack e1 e2 hp hnd =>
      serialize_obj_perm h fuel r1 r2 fds fds' refs stack e1 e2 hp hnd,
   fun refs r1 r2 hne => hostRefToken_pair_ne refs r1 r2 hne,
   rfl⟩

/-- Claim C8, witness: the two differently-ordered copies of `{a:1, b:[1,2]}`
in `permPairHeap` serialize identically, and two distinct host objects get
distinct tokens. -/
theorem claim8_witness :
    serializeInternal permPairHeap (boundFuel permPairHeap) (.ref 0) [] []
      = serializeInternal permPairHeap (boundFuel permPairHeap) (.ref 1) [] [] ∧
    (hostRefToken (hostRefToken [] 3).2 5).1 ≠ (hostRefToken [] 3).1 :=
  ⟨claim8.1 permPairHeap (boundFuel permPairHeap) 0 1
      [("a", .prim (.num (.int 1))), ("b", .ref 2)]
      [("b", .ref 2), ("a", .prim (.num (.int 1)))] [] [] rfl rfl
      (List.Perm.swap _ _ _) (by decide),
   claim8.2.1 [] 3 5 (by decide)⟩

/-! ### Claim C4 -/

/-- Claim C4, counterexample: with `objectPrototype` disabled nothing at all
is copied onto the shared object prototype — the accessor-like names `get`
and `set` are *not* extended either, although they were candidates (instance
methods of the `Object` namespace): the exception in `objectRestricted` works
in the opposite direction from the claim. -/
theorem claim4_counterexample :
    (extendRun false objExtendInput extendOptsDefault).1 = [] ∧
    "get" ∉ (extendRun false objExtendInput extendOptsDefault).1 ∧
    (objMethodsFixture.lookup "get").isSome = true ∧
    (objMethodsFixture.lookup "get").map (fun m => m.hasInstance) = some true :=
  ⟨rfl, by intro hmem; rw [show (extendRun false objExtendInput extendOptsDefault).1
      = [] from rfl] at hmem; exact List.not_mem_nil _ hmem, rfl, rfl⟩

/-- Claim C4, amended: when `extend` runs on the `Object` namespace with
`objectPrototype` disabled (the default), no candidate instance method — the
names `get` and `set` included — is copied onto the shared base object
prototype; the narrow `get`/`set` exception of `objectRestricted` works the
other way around: those two names stay restricted even when
`objectPrototype` is enabled. -/
theorem claim4_amended (inp : ExtendInput) (opts : ExtendOpts)
    (hObj : inp.isObject = true)
    (hAllow : extendUpdatedAllow false inp opts = false) :
    (extendRun false inp opts).1 = [] ∧
    (∀ name, objectRestricted true true true name
      = (name == "get" || name == "set")) := by
  constructor
  · unfold extendRun
    by_cases hexc : namespaceIsExcepted opts inp.nativeClassTag = true
    · rw [if_pos hexc]
    · rw [if_neg hexc]
      simp only []
      rw [List.filterMap_eq_nil_iff]
      intro e _
      unfold extendInstFilter
      cases e2 : e.2 with
      | none => rfl
      | some m =>
        simp only []
        rw [hAllow, hObj]
        have hcx : canExtend opts true false true
            (inp.nativeProtoMembers.contains e.1) m e.1 = false := by
          unfold canExtend objectRestricted
          simp
        rw [hcx, Bool.and_false, if_neg (by simp)]
  · intro name
    unfold objectRestricted
    simp

/-- Claim C4, witness for the amended theorem: the concrete `Object`
namespace carrying instance methods `get`, `set`, `isEqual` extends nothing
onto the object prototype under the default options. -/
theorem claim4_witness :
    objExtendInput.isObject = true ∧
    extendUpdatedAllow false objExtendInput extendOptsDefault = false ∧
    (extendRun false objExtendInput extendOptsDefault).1 = [] :=
  ⟨rfl, rfl, (claim4_amended objExtendInput extendOptsDefault rfl rfl).1⟩

/-! ### Claim C10 -/

/-- Claim C10: `serialize` assigns the identical token `"number" ++ "0"` to
the primitive numbers `0` and `-0`, so a function memoized with the default
hash treats a call with `0` and a later call with `-0` as the same unique
call — the second call is a cache hit (the counter does not advance) and
returns the cached result computed from `0`, not the value the function
would return for `-0` — even though `equal(0, -0)` is false. -/
theorem claim10 :
    serializeInternal [] (boundFuel ([] : Heap)) (.prim (.num (.int 0))) [] []
      = some ("number" ++ "0", []) ∧
    serializeInternal [] (boundFuel ([] : Heap)) (.prim (.num .negZero)) [] []
      = some ("number" ++ "0", []) ∧
    hashedMemoizeStep [] memoFixtureF none ⟨[], [], 0⟩ [.prim (.num (.int 0))]
      = some (.prim (.num (.int 0)),
          ⟨[("object[object Array]0number00", .prim (.num (.int 0)))], [], 1⟩) ∧
    hashedMemoizeStep [] memoFixtureF none
        ⟨[("object[object Array]0number00", .prim (.num (.int 0)))], [], 1⟩
        [.prim (.num .negZero)]
      = some (.prim (.num (.int 0)),
          ⟨[("object[object Array]0number00", .prim (.num (.int 0)))], [], 1⟩) ∧
    memoFixtureF [.prim (.num .negZero)] = .prim (.num .negZero) ∧
    (RVal.prim (.num (.int 0)) ≠ RVal.prim (.num .negZero)) ∧
    isEqualR [] (boundFuel ([] : Heap)) (.prim (.num (.int 0)))
        (.prim (.num .negZero)) [] = some false :=
  ⟨rfl, rfl, rfl, rfl, rfl, by decide, rfl⟩

end SugarFn
